import Mathlib

/-!
A shallow embedding of the Pallad language pipeline
(lexer → parser → compiler → stack VM) from the repository sources
`src/lexer.rs`, `src/parser.rs`, `src/ast.rs`, `src/ir.rs`,
`src/compiler.rs`, `src/value.rs`, `src/error.rs`, `src/vm.rs`,
together with proofs about the claims of the specification.

Modelling conventions:
* Rust `i64` is modelled as `ℤ`.  Two's-complement wrap-around of
  `+`/`-`/`*` is not modelled (no property below involves it); the
  `i64` range bound does appear where the source checks it explicitly
  (integer-literal parsing, `checked_div`, float-to-int narrowing).
* Rust `f64` is modelled as `ℚ` with exact arithmetic.  Every concrete
  float appearing in a proved statement (`2.5`, `3.5`, `0.0`) is exactly
  representable in binary64 and the operations on them are exact, so the
  rational model agrees with IEEE semantics on those inputs.
* `HashMap<String, Value>` is modelled as an association list where
  insertion conses a shadowing binding and lookup returns the most
  recent one (observationally equal to the map for this program).
* Terminal output (`println!`) is modelled as a list of lines carried in
  the VM state.
* The scanning and parsing loops take an explicit fuel argument so that
  all definitions are structurally recursive and kernel-reducible; fuel
  is chosen large enough that exhaustion is unreachable (for the parser
  this is proved where a claim needs it).
-/

namespace Pallad

/-! ### Values (`value.rs`) -/

/-- Runtime value: `Value` from `value.rs`. -/
inductive Value where
  | none
  | int (n : ℤ)
  | float (q : ℚ)
  | str (s : String)
deriving DecidableEq

/-- `Value`'s `Display` impl from `value.rs` (prints the type's name). -/
def Value.typeName : Value → String
  | .none => "none"
  | .int _ => "integer"
  | .float _ => "float"
  | .str _ => "string"

/-! ### Errors (`error.rs`) -/

/-- The error taxonomy: `PalladError` from `error.rs`. -/
inductive PalladError where
  | unexpectedToken (got : String) (expected : String) (line : Nat)
  | endOfInput (expected : String) (line : Nat)
  | unknownCharacter (got : String) (line : Nat)
  | unknownBuiltin (name : String)
  | undefinedVariable (name : String)
  | stackUnderflow (operation : String)
  | typeMismatch (left : Value) (right : Value) (operation : String)
  | invalidNumber (value : String) (line : Nat)
  | divisionByZero (operation : String)
  | intDivOverflow
  | repeatOverflow
  | negativeRepeat
  | invalidEscape (char : Char) (line : Nat)
  | unterminatedString (line : Nat)
deriving DecidableEq

/-! ### Decimal rendering helpers

Rust renders integers with `to_string()` / `println!("{}", n)` (plain
decimal).  We model that rendering recursively so that round-trip
properties can be proved about it. -/

/-- The ASCII digit character for a value `0 ≤ d ≤ 9`. -/
def digitChar (d : Nat) : Char := Char.ofNat (48 + d)

/-- Decimal digits of `n`, most significant first (`fuel ≥ n + 1` suffices,
in fact any `fuel > log10 n`). -/
def natDigits : Nat → Nat → List Char
  | 0, _ => []
  | fuel + 1, n => if n < 10 then [digitChar n] else natDigits fuel (n / 10) ++ [digitChar (n % 10)]

/-- Decimal rendering of a natural number. -/
def natRender (n : Nat) : String := String.mk (natDigits (n + 1) n)

/-- Decimal rendering of an integer, i.e. Rust's `i64::to_string`. -/
def intRender (n : ℤ) : String :=
  (if n < 0 then "-" else "") ++ natRender n.natAbs

/-- Fractional decimal digits of `num / den` (`num < den`), by long
division, stopping when the remainder is zero. -/
def fracDigits : Nat → Nat → Nat → List Char
  | 0, _, _ => []
  | fuel + 1, n, d => if n = 0 then [] else digitChar (n * 10 / d) :: fracDigits fuel (n * 10 % d) d

/-- Modelled from the spec: floats print with Rust's default `Display`
("default decimal rendering").  Under the exact-rational model of `f64`
we render sign, integer part and the exact fractional expansion (which
is finite for every binary64 value; 1100 digits always suffice).  No
claim below depends on the exact text this produces. -/
def floatRender (q : ℚ) : String :=
  (if q.num < 0 then "-" else "") ++ natRender (q.num.natAbs / q.den) ++
    (if q.num.natAbs % q.den = 0 then ""
     else "." ++ String.mk (fracDigits 1100 (q.num.natAbs % q.den) q.den))

/-! ### Tokens (`lexer.rs`) -/

/-- Lexical token: `Token` from `lexer.rs`. -/
inductive Token where
  | var
  | none
  | print
  | ident (s : String)
  | int (n : ℤ)
  | float (q : ℚ)
  | str (s : String)
  | plus
  | minus
  | star
  | slash
  | intDiv
  | mod
  | eq
  | lparen
  | rparen
  | comma
  | eol
deriving DecidableEq

/-- Model of Rust's derived `Debug` for `String` fields: the content in
double quotes.  (Escape sequences inside the quoted text are not
modelled; the claims treat these diagnostic strings opaquely.) -/
def stringDebug (s : String) : String := "\"" ++ s ++ "\""

/-- Model of the derived `Debug` rendering of a token, used by the
parser's `format!("{:?}", tok)` when building `UnexpectedToken` errors. -/
def tokenDebug : Token → String
  | .var => "Var"
  | .none => "None"
  | .print => "Print"
  | .ident s => "Ident(" ++ stringDebug s ++ ")"
  | .int n => "Int(" ++ intRender n ++ ")"
  | .float q => "Float(" ++ floatRender q ++ ")"
  | .str s => "Str(" ++ stringDebug s ++ ")"
  | .plus => "Plus"
  | .minus => "Minus"
  | .star => "Star"
  | .slash => "Slash"
  | .intDiv => "IntDiv"
  | .mod => "Mod"
  | .eq => "Eq"
  | .lparen => "LParen"
  | .rparen => "RParen"
  | .comma => "Comma"
  | .eol => "Eol"

/-! ### Lexer (`lexer.rs`, `tokenize` and `parse_string`) -/

/-- `i64::MAX`: the largest value accepted by `num.parse::<i64>()` for an
unsigned digit string. -/
def i64Max : Nat := 2 ^ 63 - 1

/-- Numeric value of a digit string (most significant first). -/
def digitsVal (cs : List Char) : Nat :=
  cs.foldl (fun a c => 10 * a + (c.toNat - 48)) 0

/-- The digit scan of `tokenize`: consumes digits and at most one `.`,
accumulating the literal's characters in `acc` and tracking `dot_count`
and `is_float`; a second dot is an `InvalidNumber` error carrying the
text scanned so far plus the dot.  Returns the scanned literal, the
`is_float` flag and the unconsumed rest. -/
def scanNum (line : Nat) : List Char → List Char → Nat → Bool →
    Except PalladError (List Char × Bool × List Char)
  | [], acc, _, fl => .ok (acc, fl, [])
  | c :: cs, acc, dots, fl =>
    if c.isDigit then scanNum line cs (acc ++ [c]) dots fl
    else if c = '.' then
      if dots + 1 > 1 then .error (.invalidNumber (String.mk (acc ++ ['.'])) (line + 1))
      else scanNum line cs (acc ++ ['.']) (dots + 1) true
    else .ok (acc, fl, c :: cs)

/-- Turn a scanned numeric literal into its token, mirroring the
`num.parse::<i64>()` / `num.parse::<f64>()` calls: an integer literal
beyond `i64::MAX` is `InvalidNumber`; a float literal `ip.fp` denotes
the exact rational `ip + fp / 10^|fp|` (Rust's `f64` parse cannot fail
on such a string; its rounding to binary64 is not modelled). -/
def numToken (line : Nat) (num : List Char) (isFloat : Bool) : Except PalladError Token :=
  if isFloat then
    let ip := num.takeWhile (· ≠ '.')
    let fp := (num.dropWhile (· ≠ '.')).drop 1
    .ok (.float ((digitsVal ip : ℚ) + (digitsVal fp : ℚ) / (10 : ℚ) ^ fp.length))
  else
    let v := digitsVal num
    if v ≤ i64Max then .ok (.int (v : ℤ))
    else .error (.invalidNumber (String.mk num) (line + 1))

/-- Identifier continuation characters: Rust's `c.is_alphanumeric() || c == '_'`
(ASCII model of the Unicode classes). -/
def isIdentChar (c : Char) : Bool := c.isAlphanum || c = '_'

/-- Keyword recognition for a scanned identifier. -/
def identToken (s : String) : Token :=
  if s = "var" then .var
  else if s = "none" then .none
  else if s = "print" then .print
  else .ident s

/-- `parse_string` from `lexer.rs`: consume characters up to the closing
`quote`, decoding `\n`, `\t`, `\r`, the quote itself and `\\`; any other
escaped character is `InvalidEscape` and running out of characters is
`UnterminatedString` (line numbers are reported 1-based). -/
def parseString (line : Nat) (quote : Char) : List Char → List Char →
    Except PalladError (String × List Char)
  | [], _ => .error (.unterminatedString (line + 1))
  | '\\' :: rest, acc =>
    match rest with
    | [] => .error (.unterminatedString (line + 1))
    | e :: rest' =>
      if e = 'n' then parseString line quote rest' (acc ++ ['\n'])
      else if e = 't' then parseString line quote rest' (acc ++ ['\t'])
      else if e = 'r' then parseString line quote rest' (acc ++ ['\r'])
      else if e = quote then parseString line quote rest' (acc ++ [e])
      else if e = '\\' then parseString line quote rest' (acc ++ ['\\'])
      else .error (.invalidEscape e (line + 1))
  | c :: rest, acc =>
    if c = quote then .ok (String.mk acc, rest)
    else parseString line quote rest (acc ++ [c])

/-- One pass of the character loop of `tokenize` over a single
(already comment-stripped and trimmed) line.  `fuel` exhaustion is
unreachable: the initial fuel is the line length plus one and every
iteration consumes at least one character. -/
def scanLine (line : Nat) : Nat → List Char → Except PalladError (List Token)
  | 0, _ => .error (.unknownCharacter "fuel" (line + 1))
  | _ + 1, [] => .ok []
  | fuel + 1, c :: cs =>
    if c = ' ' ∨ c = '\t' then scanLine line fuel cs
    else if c.isDigit then do
      let (num, isFloat, rest) ← scanNum line (c :: cs) [] 0 false
      let tok ← numToken line num isFloat
      let toks ← scanLine line fuel rest
      .ok (tok :: toks)
    else if c.isAlpha then do
      let name := (c :: cs).takeWhile isIdentChar
      let rest := (c :: cs).dropWhile isIdentChar
      let toks ← scanLine line fuel rest
      .ok (identToken (String.mk name) :: toks)
    else if c = '"' then do
      let (s, rest) ← parseString line '"' cs []
      let toks ← scanLine line fuel rest
      .ok (.str s :: toks)
    else if c = '\'' then do
      let (s, rest) ← parseString line '\'' cs []
      let toks ← scanLine line fuel rest
      .ok (.str s :: toks)
    else if c = '/' then
      -- peek: `//` is integer division, a lone `/` float division
      if cs.head? = some '/' then do
        let toks ← scanLine line fuel cs.tail
        .ok (.intDiv :: toks)
      else do
        let toks ← scanLine line fuel cs
        .ok (.slash :: toks)
    else if c = '+' then do let toks ← scanLine line fuel cs; .ok (.plus :: toks)
    else if c = '-' then do let toks ← scanLine line fuel cs; .ok (.minus :: toks)
    else if c = '*' then do let toks ← scanLine line fuel cs; .ok (.star :: toks)
    else if c = '%' then do let toks ← scanLine line fuel cs; .ok (.mod :: toks)
    else if c = '=' then do let toks ← scanLine line fuel cs; .ok (.eq :: toks)
    else if c = '(' then do let toks ← scanLine line fuel cs; .ok (.lparen :: toks)
    else if c = ')' then do let toks ← scanLine line fuel cs; .ok (.rparen :: toks)
    else if c = ',' then do let toks ← scanLine line fuel cs; .ok (.comma :: toks)
    else .error (.unknownCharacter (String.mk [c]) (line + 1))

/-- Model of Rust's `str::lines`: split at `'\n'`, not keeping a final
empty piece, and dropping one trailing `'\r'` from each line (`\r\n`). -/
def rlines : List Char → List (List Char)
  | [] => []
  | c :: cs =>
    if c = '\n' then [] :: rlines cs
    else
      match rlines cs with
      | [] => [[c]]
      | l :: ls => (c :: l) :: ls

/-- Drop one trailing carriage return (the `\r` of a `\r\n` ending). -/
def dropCR (l : List Char) : List Char :=
  if l.getLast? = some '\r' then l.dropLast else l

/-- Whitespace for the model of Rust's `str::trim` (ASCII model). -/
def trimChars (l : List Char) : List Char :=
  ((l.dropWhile Char.isWhitespace).reverse.dropWhile Char.isWhitespace).reverse

/-- The body of `tokenize`'s line loop: for each line (0-based index
`line`), truncate at the first `'#'`, trim, skip if empty, otherwise
scan and append one trailing `Eol` token. -/
def tokenizeLines : Nat → List (List Char) → Except PalladError (List Token)
  | _, [] => .ok []
  | line, l :: ls =>
    let t := trimChars ((dropCR l).takeWhile (· ≠ '#'))
    if t = [] then tokenizeLines (line + 1) ls
    else do
      let toks ← scanLine line (t.length + 1) t
      let rest ← tokenizeLines (line + 1) ls
      .ok (toks ++ Token.eol :: rest)

/-- `tokenize` from `lexer.rs`. -/
def tokenize (input : String) : Except PalladError (List Token) :=
  tokenizeLines 0 (rlines input.data)

/-! ### AST (`ast.rs`) -/

/-- Binary operator: `BinOp` from `ast.rs`. -/
inductive BinOp where
  | add
  | sub
  | mul
  | div
  | intDiv
  | mod
deriving DecidableEq

/-- Expression AST node: `Expr` from `ast.rs`. -/
inductive Expr where
  | none
  | int (n : ℤ)
  | float (q : ℚ)
  | str (s : String)
  | var (name : String)
  | binary (left : Expr) (op : BinOp) (right : Expr)
  | call (name : String) (args : List Expr)

/-- Statement AST node: `Stmt` from `ast.rs` (`Let` is `letStmt` here,
`let` being reserved in Lean). -/
inductive Stmt where
  | letStmt (name : String) (expr : Expr)
  | expr (e : Expr)

/-! ### IR (`ir.rs`) -/

/-- IR instruction: `Instr`.  `ir.rs` itself omits a `LoadNone` variant,
but `vm.rs` matches on `Instr::LoadNone` and the spec's data model lists
`load-none`; we include it so the VM's arm can be embedded (the compiler
proper never emits it for parser-produced programs). -/
inductive Instr where
  | loadNone
  | loadInt (n : ℤ)
  | loadFloat (q : ℚ)
  | loadStr (s : String)
  | loadVar (name : String)
  | storeVar (name : String)
  | add
  | sub
  | mul
  | div
  | intDiv
  | mod
  | callBuiltin (name : String) (argc : Nat)
  | pop

/-! ### Compiler (`compiler.rs`) -/

/-- The opcode emitted for a binary operator (the `match op` in
`compile_expr`). -/
def opcodeOf : BinOp → Instr
  | .add => .add
  | .sub => .sub
  | .mul => .mul
  | .div => .div
  | .intDiv => .intDiv
  | .mod => .mod

mutual
/-- `compile_expr` from `compiler.rs`: postorder lowering of an
expression (left, right, opcode; call arguments left-to-right then
`CallBuiltin`).  The `Expr.none` arm is modelled from the spec:
`compile_expr` in `compiler.rs` has no arm for `Expr::None` (and `ir.rs`
lacks the corresponding instruction); the spec's lowering table maps the
none literal one-to-one to the load-none instruction. -/
def compileExpr : Expr → List Instr
  | .none => [.loadNone]
  | .int n => [.loadInt n]
  | .float q => [.loadFloat q]
  | .str s => [.loadStr s]
  | .var name => [.loadVar name]
  | .binary l op r => compileExpr l ++ compileExpr r ++ [opcodeOf op]
  | .call name args => compileArgs args ++ [.callBuiltin name args.length]

/-- Lowering of a call's argument list, left-to-right. -/
def compileArgs : List Expr → List Instr
  | [] => []
  | e :: es => compileExpr e ++ compileArgs es
end

/-- The statement loop of `compile` from `compiler.rs`. -/
def compileStmts : List Stmt → List Instr
  | [] => []
  | .letStmt name e :: rest => compileExpr e ++ .storeVar name :: compileStmts rest
  | .expr (.call name args) :: rest =>
    compileArgs args ++ .callBuiltin name args.length :: compileStmts rest
  | .expr e :: rest => compileExpr e ++ .pop :: compileStmts rest

/-- `compile` from `compiler.rs`: it retains a `Result` type but always
returns `Ok`. -/
def compile (stmts : List Stmt) : Except PalladError (List Instr) :=
  .ok (compileStmts stmts)

/-! ### Virtual machine (`vm.rs`) -/

/-- The VM's private operation tag `Op` from `vm.rs`. -/
inductive Op where
  | add
  | sub
  | mul
  | div
  | intDiv
  | mod
deriving DecidableEq

/-- `Op::name` from `vm.rs`. -/
def Op.name : Op → String
  | .add => "add"
  | .sub => "subtract"
  | .mul => "multiply"
  | .div => "divide"
  | .intDiv => "integer-divide"
  | .mod => "mod"

/-- VM state: the operand stack (head = top) and global table of
`struct VM`, plus the text written to standard output so far (one
entry per `println!` line). -/
structure VMState where
  stack : List Value
  globals : List (String × Value)
  output : List String
deriving DecidableEq

/-- The empty state built by `VM::new` (no output yet). -/
def VMState.init : VMState := ⟨[], [], []⟩

/-- `i64::MIN` as an integer. -/
def i64Min : ℤ := -(2 ^ 63)

/-- `i64::MAX` as an integer. -/
def i64MaxZ : ℤ := 2 ^ 63 - 1

/-- The float-to-integer narrowing of the mixed/float `IntDiv` arms:
`result.floor()` followed by the finiteness/range check and cast.  In
the exact-rational model the result is always finite; the range bounds
are `i64::MIN as f64 = -2^63` and `i64::MAX as f64 = 2^63` (the cast of
`i64::MAX` rounds up to `2^63`). -/
def floorToInt (q : ℚ) : Except PalladError Value :=
  let r : ℤ := ⌊q⌋
  if -(2 ^ 63) ≤ r ∧ r ≤ 2 ^ 63 then .ok (.int r) else .error .intDivOverflow

/-- `println!("{}", n)` rendering of a value inside the `print` builtin:
integers in decimal, floats in default decimal rendering, strings as
their raw content, `Value::None` as the literal `<none>` token. -/
def renderValue : Value → String
  | .none => "<none>"
  | .int n => intRender n
  | .float q => floatRender q
  | .str s => s

/-- `str::repeat`. -/
def strRepeat (s : String) : Nat → String
  | 0 => ""
  | n + 1 => s ++ strRepeat s n

/-- `usize::MAX`, the bound of the `checked_mul` overflow guard on
string repetition. -/
def usizeMax : Nat := 2 ^ 64 - 1

/-- Truncation toward zero on rationals (the rounding of Rust's float
`%`, which is `fmod`). -/
def ratTrunc (q : ℚ) : ℤ := if q < 0 then ⌈q⌉ else ⌊q⌋

/-- The arithmetic core of `VM::pop_two_operands` after both operands
have been popped: the division-by-zero pre-check (performed for
`Div`/`IntDiv`/`Mod` before the type-coercion match, on an integer zero
or floating zero right operand) followed by the type-coercion match.
`a` is the left operand, `b` the right one. -/
def binOpEval (op : Op) (a b : Value) : Except PalladError Value :=
  let isZero : Bool :=
    match b with
    | .int n => n = 0
    | .float f => f = 0
    | _ => false
  if (op = .div ∨ op = .intDiv ∨ op = .mod) ∧ isZero then
    .error (.divisionByZero op.name)
  else
    match a, b, op with
    -- add (+)
    | .int a, .int b, .add => .ok (.int (a + b))
    | .int a, .float b, .add => .ok (.float ((a : ℚ) + b))
    | .int a, .str b, .add => .ok (.str (intRender a ++ b))
    | .float a, .int b, .add => .ok (.float (a + (b : ℚ)))
    | .float a, .float b, .add => .ok (.float (a + b))
    | .float a, .str b, .add => .ok (.str (floatRender a ++ b))
    | .str a, .int b, .add => .ok (.str (a ++ intRender b))
    | .str a, .float b, .add => .ok (.str (a ++ floatRender b))
    | .str a, .str b, .add => .ok (.str (a ++ b))
    -- subtract (-)
    | .int a, .int b, .sub => .ok (.int (a - b))
    | .int a, .float b, .sub => .ok (.float ((a : ℚ) - b))
    | .float a, .int b, .sub => .ok (.float (a - (b : ℚ)))
    | .float a, .float b, .sub => .ok (.float (a - b))
    -- multiply (*)
    | .int a, .int b, .mul => .ok (.int (a * b))
    | .int a, .float b, .mul => .ok (.float ((a : ℚ) * b))
    | .float a, .int b, .mul => .ok (.float (a * (b : ℚ)))
    | .float a, .float b, .mul => .ok (.float (a * b))
    | .str a, .int b, .mul =>
      if b < 0 then .error .negativeRepeat
      else if a.utf8ByteSize * b.toNat > usizeMax then .error .repeatOverflow
      else .ok (.str (strRepeat a b.toNat))
    -- divide (/)
    | .int a, .int b, .div => .ok (.float ((a : ℚ) / (b : ℚ)))
    | .int a, .float b, .div => .ok (.float ((a : ℚ) / b))
    | .float a, .int b, .div => .ok (.float (a / (b : ℚ)))
    | .float a, .float b, .div => .ok (.float (a / b))
    -- integer-divide (//): `a.checked_div(b)` truncates toward zero and
    -- is `None` exactly for `i64::MIN / -1` (zero was already rejected)
    | .int a, .int b, .intDiv =>
      if a = i64Min ∧ b = -1 then .error .intDivOverflow
      else .ok (.int (Int.tdiv a b))
    | .int a, .float b, .intDiv => floorToInt ((a : ℚ) / b)
    | .float a, .int b, .intDiv => floorToInt (a / (b : ℚ))
    | .float a, .float b, .intDiv => floorToInt (a / b)
    -- mod (%): Rust `%` truncates (remainder has the dividend's sign)
    | .int a, .int b, .mod => .ok (.int (Int.tmod a b))
    | .int a, .float b, .mod => .ok (.float ((a : ℚ) - b * ratTrunc ((a : ℚ) / b)))
    | .float a, .int b, .mod => .ok (.float (a - (b : ℚ) * ratTrunc (a / (b : ℚ))))
    | .float a, .float b, .mod => .ok (.float (a - b * ratTrunc (a / b)))
    | a, b, op => .error (.typeMismatch a b op.name)

/-- `VM::pop_two_operands`: pop the right then the left operand (either
pop underflowing is `StackUnderflow` with the operation's name), then
evaluate.  Returns the stack as it is after the two pops together with
the outcome, so that the state on failure is also captured. -/
def popTwoOperands (op : Op) : List Value → List Value × Except PalladError Value
  | [] => ([], .error (.stackUnderflow op.name))
  | [_] => ([], .error (.stackUnderflow op.name))
  | b :: a :: rest => (rest, binOpEval op a b)

/-- The argument-popping loop of the `print` builtin: pop exactly `argc`
values (top of stack first); any pop underflowing fails the whole call
with `StackUnderflow{"print"}`.  Returns the popped values in pop order
and the remaining stack. -/
def popArgs : Nat → List Value → Except PalladError (List Value × List Value)
  | 0, stack => .ok ([], stack)
  | _ + 1, [] => .error (.stackUnderflow "print")
  | n + 1, v :: stack => do
    let (args, rest) ← popArgs n stack
    .ok (v :: args, rest)

/-- `VM::execute_arithmetic`: pop two operands, evaluate, push the
result on success; on failure the state keeps the stack as it is after
the pops. -/
def execArith (op : Op) (s : VMState) : VMState × Option PalladError :=
  match popTwoOperands op s.stack with
  | (rest, .ok v) => ({ s with stack := v :: rest }, Option.none)
  | (rest, .error e) => ({ s with stack := rest }, some e)

/-- One step of `VM::run`: execute a single instruction against a state.
Mirroring `&mut self` + `Result<(), PalladError>`, the result is the
state after the step paired with `some`-error when the instruction
returned `Err` (the state captures exactly what the Rust VM holds at
that moment, including operands already popped and lost). -/
def exec1 (i : Instr) (s : VMState) : VMState × Option PalladError :=
  match i with
  | .loadNone => ({ s with stack := .none :: s.stack }, Option.none)
  | .loadInt n => ({ s with stack := .int n :: s.stack }, Option.none)
  | .loadFloat q => ({ s with stack := .float q :: s.stack }, Option.none)
  | .loadStr str => ({ s with stack := .str str :: s.stack }, Option.none)
  | .loadVar name =>
    match s.globals.lookup name with
    | some v => ({ s with stack := v :: s.stack }, Option.none)
    | Option.none => (s, some (.undefinedVariable name))
  | .storeVar name =>
    match s.stack with
    | [] => (s, some (.stackUnderflow "store variable"))
    | v :: rest => ({ s with stack := rest, globals := (name, v) :: s.globals }, Option.none)
  | .add => execArith .add s
  | .sub => execArith .sub s
  | .mul => execArith .mul s
  | .div => execArith .div s
  | .intDiv => execArith .intDiv s
  | .mod => execArith .mod s
  | .callBuiltin name argc =>
    if name = "print" then
      match popArgs argc s.stack with
      | .ok (args, rest) =>
        ({ s with stack := rest,
                  output := s.output ++ (args.reverse.map renderValue) }, Option.none)
      | .error e =>
        -- underflow happens only once the whole stack has been popped
        ({ s with stack := [] }, some e)
    else
      (s, some (.unknownBuiltin name))
  | .pop =>
    match s.stack with
    | [] => (s, some (.stackUnderflow "Pop"))
    | _ :: rest => ({ s with stack := rest }, Option.none)

/-- `VM::run`: execute the instructions in order, stopping at the first
error. -/
def run : List Instr → VMState → VMState × Option PalladError
  | [], s => (s, Option.none)
  | i :: is, s =>
    match exec1 i s with
    | (s', Option.none) => run is s'
    | (s', some e) => (s', some e)

/-! ### Parser (`parser.rs`)

`struct Parser` holds the token vector, a read cursor and a line
counter that increments whenever an `Eol` token is consumed.  The
mutually recursive descent functions are embedded with an explicit fuel
argument (first parameter) so they are structurally recursive; fuel
exhaustion yields a sentinel error that is unreachable for the fuel
`parse` supplies, every recursive call being preceded by progress
through the token stream. -/

/-- Parser state: `Parser`'s `tokens`, `pos` and `line` fields. -/
structure PState where
  tokens : List Token
  pos : Nat
  line : Nat
deriving DecidableEq

/-- `Parser::current`. -/
def curTok (s : PState) : Option Token := s.tokens[s.pos]?

/-- `Parser::advance`: step past the current token, bumping the line
counter when that token is an `Eol`. -/
def padvance (s : PState) : PState :=
  { s with
    pos := s.pos + 1,
    line := match curTok s with | some .eol => s.line + 1 | _ => s.line }

/-- The sentinel returned on fuel exhaustion; unreachable for the fuel
supplied by `parse`. -/
def fuelError : PalladError := .endOfInput "fuel" 0

/-- The expectation string of `parse_factor`'s error arms. -/
def factorExpected : String := "integer, float, variable, or '('"

/-- The multiplicative operator selected by `parse_mul_div`'s match, if
any. -/
def mulOpOf : Option Token → Option BinOp
  | some .star => some .mul
  | some .slash => some .div
  | some .intDiv => some .intDiv
  | some .mod => some .mod
  | _ => Option.none

/-- The additive operator selected by `parse_add_sub`'s match, if any. -/
def addOpOf : Option Token → Option BinOp
  | some .plus => some .add
  | some .minus => some .sub
  | _ => Option.none

mutual
/-- `Parser::parse_factor`: unary minus (desugared to `0 - operand`),
literals, variables and parenthesised expressions. -/
def parseFactor : Nat → PState → Except PalladError (Expr × PState)
  | 0, _ => .error fuelError
  | fuel + 1, s =>
    match curTok s with
    | some .minus =>
      match parseFactor fuel (padvance s) with
      | .ok (operand, s') => .ok (.binary (.int 0) .sub operand, s')
      | .error e => .error e
    | some (.int n) => .ok (.int n, padvance s)
    | some (.float q) => .ok (.float q, padvance s)
    | some (.str str) => .ok (.str str, padvance s)
    | some (.ident name) => .ok (.var name, padvance s)
    | some .lparen =>
      match parseAddSub fuel (padvance s) with
      | .ok (e, s') =>
        match curTok s' with
        | some .rparen => .ok (e, padvance s')
        | some other => .error (.unexpectedToken (tokenDebug other) "')'" s'.line)
        | Option.none => .error (.endOfInput "')'" s'.line)
      | .error e => .error e
    | some tok => .error (.unexpectedToken (tokenDebug tok) factorExpected s.line)
    | Option.none => .error (.endOfInput factorExpected s.line)

/-- `Parser::parse_mul_div`: one factor, then the same-level operator
loop. -/
def parseMulDiv : Nat → PState → Except PalladError (Expr × PState)
  | 0, _ => .error fuelError
  | fuel + 1, s =>
    match parseFactor fuel s with
    | .ok (left, s') => mulLoop fuel left s'
    | .error e => .error e

/-- The `while` loop of `parse_mul_div`: greedily consume `*`, `/`,
`//`, `%` operators, folding left-associatively. -/
def mulLoop : Nat → Expr → PState → Except PalladError (Expr × PState)
  | 0, _, _ => .error fuelError
  | fuel + 1, left, s =>
    match mulOpOf (curTok s) with
    | some op =>
      match parseFactor fuel (padvance s) with
      | .ok (right, s') => mulLoop fuel (.binary left op right) s'
      | .error e => .error e
    | Option.none => .ok (left, s)

/-- `Parser::parse_add_sub`: one multiplicative operand, then the
same-level operator loop. -/
def parseAddSub : Nat → PState → Except PalladError (Expr × PState)
  | 0, _ => .error fuelError
  | fuel + 1, s =>
    match parseMulDiv fuel s with
    | .ok (left, s') => addLoop fuel left s'
    | .error e => .error e

/-- The `while` loop of `parse_add_sub`: greedily consume `+` and `-`,
folding left-associatively. -/
def addLoop : Nat → Expr → PState → Except PalladError (Expr × PState)
  | 0, _, _ => .error fuelError
  | fuel + 1, left, s =>
    match addOpOf (curTok s) with
    | some op =>
      match parseMulDiv fuel (padvance s) with
      | .ok (right, s') => addLoop fuel (.binary left op right) s'
      | .error e => .error e
    | Option.none => .ok (left, s)
end

/-- `Parser::parse_expr` (an alias for the lowest precedence level). -/
def parseExpr : Nat → PState → Except PalladError (Expr × PState) :=
  parseAddSub

/-- The argument-list loop of the `print` statement arm of
`Parser::parse`: at each round a closing `)` ends the list; otherwise
one expression is parsed and must be followed by `,` (continue) or `)`
(stop). -/
def parseArgs : Nat → PState → Except PalladError (List Expr × PState)
  | 0, _ => .error fuelError
  | fuel + 1, s =>
    match curTok s with
    | some .rparen => .ok ([], padvance s)
    | _ =>
      match parseExpr fuel s with
      | .ok (e, s') =>
        match curTok s' with
        | some .comma =>
          match parseArgs fuel (padvance s') with
          | .ok (es, s'') => .ok (e :: es, s'')
          | .error err => .error err
        | some .rparen => .ok ([e], padvance s')
        | some other => .error (.unexpectedToken (tokenDebug other) "',' or ')'" s'.line)
        | Option.none => .error (.endOfInput "',' or ')'" s'.line)
      | .error err => .error err

/-- The statement loop of `Parser::parse`: `var` begins a `Let`,
`print` a call statement, a bare `Eol` is skipped, anything else is a
syntax error naming the legal statement starts. -/
def parseStmts : Nat → PState → Except PalladError (List Stmt)
  | 0, _ => .error fuelError
  | fuel + 1, s =>
    match curTok s with
    | Option.none => .ok []
    | some .var =>
      match curTok (padvance s) with
      | some (.ident name) =>
        match curTok (padvance (padvance s)) with
        | some .eq =>
          match parseExpr fuel (padvance (padvance (padvance s))) with
          | .ok (e, s3) =>
            match parseStmts fuel s3 with
            | .ok rest => .ok (.letStmt name e :: rest)
            | .error err => .error err
          | .error err => .error err
        | some other =>
          .error (.unexpectedToken (tokenDebug other) "'='" (padvance (padvance s)).line)
        | Option.none => .error (.endOfInput "'='" (padvance (padvance s)).line)
      | some other => .error (.unexpectedToken (tokenDebug other) "identifier" (padvance s).line)
      | Option.none => .error (.endOfInput "identifier" (padvance s).line)
    | some .print =>
      match curTok (padvance s) with
      | some .lparen =>
        match parseArgs fuel (padvance (padvance s)) with
        | .ok (args, s2) =>
          match parseStmts fuel s2 with
          | .ok rest => .ok (.expr (.call "print" args) :: rest)
          | .error err => .error err
        | .error err => .error err
      | some other => .error (.unexpectedToken (tokenDebug other) "'('" (padvance s).line)
      | Option.none => .error (.endOfInput "'('" (padvance s).line)
    | some .eol => parseStmts fuel (padvance s)
    | some other =>
      .error (.unexpectedToken (tokenDebug other) "'var', 'print', or end of line" s.line)

/-- `Parser::new` followed by `Parser::parse`: parse a token stream
from position 0 with the line counter at 1.  The fuel `8·|tokens| + 8`
is enough for the whole parse (each statement consumes at least one
token and every descent either consumes a token or moves at most a
bounded number of levels down). -/
def parse (toks : List Token) : Except PalladError (List Stmt) :=
  parseStmts (8 * toks.length + 8) ⟨toks, 0, 1⟩

/-! ### End-to-end pipeline (`main.rs` without the file I/O) -/

/-- The pipeline of `main.rs`: tokenize, parse, compile, then run on a
fresh VM.  A stage error aborts the pipeline (`.error e`); otherwise the
result is the final VM state paired with the runtime outcome. -/
def pipeline (src : String) : Except PalladError (VMState × Option PalladError) := do
  let toks ← tokenize src
  let stmts ← parse toks
  let prog ← compile stmts
  pure (run prog VMState.init)

/-! ### Helper lemmas -/

/-- Popping `l.length` values off `l ++ rest` yields exactly `l` (in pop
order) and leaves `rest`. -/
theorem popArgs_append (l rest : List Value) :
    popArgs l.length (l ++ rest) = .ok (l, rest) := by
  induction l with
  | nil => rfl
  | cons v l ih =>
    show (do
      let (args, r) ← popArgs l.length (l ++ rest)
      Except.ok (v :: args, r)) = _
    rw [ih]
    rfl

/-! ### C1 — integer `//` truncates instead of flooring -/

/-- C1: the claim says running the IR for `-7 // 2` yields `-4`
(flooring).  It does not: `Int::checked_div` (Rust `i64` division)
truncates toward zero, so the pipeline prints `-3`.  The positive case
`7 // 2 = 3` does hold.  This theorem evaluates the full pipeline at
both inputs and records that the output at the failing input is `-3`,
not the `-4` the claim requires. -/
theorem c1_intdiv_truncates :
    pipeline "print(7 // 2)" = .ok (⟨[], [], ["3"]⟩, Option.none) ∧
    pipeline "print(-7 // 2)" = .ok (⟨[], [], ["-3"]⟩, Option.none) ∧
    pipeline "print(-7 // 2)" ≠ .ok (⟨[], [], ["-4"]⟩, Option.none) := by
  refine ⟨rfl, rfl, ?_⟩
  intro h
  rw [show pipeline "print(-7 // 2)" = .ok (⟨[], [], ["-3"]⟩, Option.none) from rfl] at h
  have h' := congrArg (fun r => match r with
    | Except.ok (s, _) => s.output
    | Except.error _ => []) h
  simp at h'

/-! ### C2 — `#` inside a string literal still starts a comment -/

/-- C2 counterexample: the claim says a `#` between the quotes of a
string literal does not start a comment and the characters after it are
tokenized as part of the string.  On the line `print("a#b")` the lexer
instead truncates at the `#` (it splits the raw line on `'#'` before any
quote handling), leaving `print("a`, whose string literal is then
unterminated. -/
theorem c2_hash_in_string_counterexample :
    tokenize "print(\"a#b\")" = .error (.unterminatedString 1) := rfl

/-! ### C5 — division-by-zero check precedes the coercion match -/

/-- C5: for `Div`, `IntDiv` and `Mod`, a right operand equal to the
integer `0` or the float `0.0` is rejected with `DivisionByZero`
carrying the operation's name, whatever the left operand is (the check
precedes the type-coercion match); in particular `5 / 0` fails with
`DivisionByZero{"divide"}` and `5 % 0` with `DivisionByZero{"mod"}`. -/
theorem c5_division_by_zero
    (a b : Value) (op : Op)
    (hop : op = .div ∨ op = .intDiv ∨ op = .mod)
    (hb : b = .int 0 ∨ b = .float 0) :
    binOpEval op a b = .error (.divisionByZero op.name) ∧
    Op.name .div = "divide" ∧ Op.name .mod = "mod" ∧
    pipeline "print(5 / 0)" = .ok (⟨[], [], []⟩, some (.divisionByZero "divide")) ∧
    pipeline "print(5 % 0)" = .ok (⟨[], [], []⟩, some (.divisionByZero "mod")) := by
  rcases hop with h | h | h <;> rcases hb with hb | hb <;> subst h <;> subst hb <;>
    exact ⟨rfl, rfl, rfl, rfl, rfl⟩

/-- Witness for C5 at a concrete input: a string left operand and the
integer zero right operand under `/`. -/
theorem c5_division_by_zero_witness :
    binOpEval .div (.str "x") (.int 0) = .error (.divisionByZero "divide") :=
  (c5_division_by_zero (.str "x") (.int 0) .div (Or.inl rfl) (Or.inl rfl)).1

/-! ### C6 — the documented type-coercion results -/

/-- C6: the four documented mixed-type results, evaluated on the IR the
compiler produces for them: `1 + 2.5` is the float `3.5`, `"a" + 1` is
the string `"a1"`, `"ab" * 3` is the string `"ababab"`, and `"ab" * -1`
fails with `NegativeRepeat`. -/
theorem c6_type_coercion :
    run [.loadInt 1, .loadFloat 2.5, .add] VMState.init
      = (⟨[.float 3.5], [], []⟩, Option.none) ∧
    run [.loadStr "a", .loadInt 1, .add] VMState.init
      = (⟨[.str "a1"], [], []⟩, Option.none) ∧
    run [.loadStr "ab", .loadInt 3, .mul] VMState.init
      = (⟨[.str "ababab"], [], []⟩, Option.none) ∧
    run [.loadStr "ab", .loadInt (-1), .mul] VMState.init
      = (⟨[], [], []⟩, some .negativeRepeat) := by
  refine ⟨?_, rfl, rfl, rfl⟩
  have aux : ∀ q : ℚ, run [.loadInt 1, .loadFloat q, .add] VMState.init
      = (⟨[.float (1 + q)], [], []⟩, Option.none) := fun _ => rfl
  rw [aux 2.5]
  norm_num

/-! ### C7 — the `print` builtin pops, reorders and renders -/

/-- C7: executing `CallBuiltin{"print", argc}` with exactly the `argc`
pushed arguments on top of the stack pops them all, restores their
left-to-right push order, and appends one output line per argument in
call order, each rendered by the fixed per-type form: integers in
decimal, floats in the default decimal rendering, strings as raw
content, none as the literal `<none>` placeholder. -/
theorem c7_print_semantics :
    (∀ (args rest : List Value) (g : List (String × Value)) (out : List String),
      exec1 (.callBuiltin "print" args.length) ⟨args.reverse ++ rest, g, out⟩
        = (⟨rest, g, out ++ args.map renderValue⟩, Option.none)) ∧
    (∀ n, renderValue (.int n) = intRender n) ∧
    (∀ q, renderValue (.float q) = floatRender q) ∧
    (∀ s, renderValue (.str s) = s) ∧
    renderValue .none = "<none>" := by
  refine ⟨?_, fun _ => rfl, fun _ => rfl, fun _ => rfl, rfl⟩
  intro args rest g out
  have h := popArgs_append args.reverse rest
  simp only [exec1, if_pos rfl]
  rw [show args.length = args.reverse.length by simp, h]
  simp

/-- Witness for C7 at concrete arguments `print(7, "hi", none)` with one
extra value below them on the stack. -/
theorem c7_print_semantics_witness :
    exec1 (.callBuiltin "print" 3)
        ⟨[.none, .str "hi", .int 7, .int 99], [("x", .int 1)], ["old"]⟩
      = (⟨[.int 99], [("x", .int 1)], ["old", "7", "hi", "<none>"]⟩, Option.none) := by
  have h := c7_print_semantics.1 [.int 7, .str "hi", .none] [.int 99]
    [("x", .int 1)] ["old"]
  simpa using h

/-! ### C10 — unknown builtins fail atomically -/

/-- C10: a `CallBuiltin` naming any builtin other than `print` fails
with `UnknownBuiltin{name}` before popping anything: the resulting
state — operand stack and global table — is exactly the state before
the instruction. -/
theorem c10_unknown_builtin_atomic
    (name : String) (argc : Nat) (s : VMState) (h : name ≠ "print") :
    exec1 (.callBuiltin name argc) s = (s, some (.unknownBuiltin name)) := by
  simp only [exec1, if_neg h]

/-- Witness for C10: the builtin `"foo"` with two (not even present)
arguments, on a one-value stack. -/
theorem c10_unknown_builtin_atomic_witness :
    exec1 (.callBuiltin "foo" 2) ⟨[.int 1], [], []⟩
      = (⟨[.int 1], [], []⟩, some (.unknownBuiltin "foo")) :=
  c10_unknown_builtin_atomic "foo" 2 ⟨[.int 1], [], []⟩ (by decide)

/-! ### List helper lemmas for the lexer proofs -/

theorem takeWhile_all {p : Char → Bool} :
    ∀ {l : List Char}, (∀ c ∈ l, p c = true) → l.takeWhile p = l
  | [], _ => rfl
  | c :: cs, h => by
    have hc := h c (List.mem_cons_self c cs)
    have ih := takeWhile_all (fun x hx => h x (List.mem_cons_of_mem c hx))
    simp [List.takeWhile_cons, hc, ih]

theorem takeWhile_append_stop {p : Char → Bool} {x : Char} (post : List Char)
    (hx : p x = false) :
    ∀ {pre : List Char}, (∀ c ∈ pre, p c = true) →
      (pre ++ x :: post).takeWhile p = pre
  | [], _ => by simp [List.takeWhile_cons, hx]
  | c :: cs, h => by
    have hc := h c (List.mem_cons_self c cs)
    have ih := takeWhile_append_stop post hx (fun y hy => h y (List.mem_cons_of_mem c hy))
    simp [List.takeWhile_cons, hc, ih]

theorem dropWhile_all {p : Char → Bool} :
    ∀ {l : List Char}, (∀ c ∈ l, p c = false) → l.dropWhile p = l
  | [], _ => rfl
  | c :: cs, h => by
    have hc := h c (List.mem_cons_self c cs)
    simp [List.dropWhile_cons, hc]

/-- Trimming is the identity on a line with no whitespace characters. -/
theorem trimChars_id {l : List Char} (h : ∀ c ∈ l, c.isWhitespace = false) :
    trimChars l = l := by
  unfold trimChars
  rw [dropWhile_all h, dropWhile_all (fun c hc => h c (List.mem_reverse.mp hc)),
    List.reverse_reverse]

/-- Dropping a trailing carriage return is the identity on a line that
contains none. -/
theorem dropCR_id {l : List Char} (h : '\r' ∉ l) : dropCR l = l := by
  unfold dropCR
  rw [if_neg]
  intro hc
  rcases List.mem_getLast?_eq_getLast (Option.mem_def.mpr hc) with ⟨hne, hlast⟩
  exact h (hlast ▸ List.getLast_mem hne)

/-- `str::lines` yields one line on newline-free nonempty input. -/
theorem rlines_single : ∀ {l : List Char}, '\n' ∉ l → l ≠ [] → rlines l = [l]
  | [], _, hne => absurd rfl hne
  | c :: cs, h, _ => by
    have hc : ¬ c = '\n' := fun hc => h (hc ▸ List.mem_cons_self c cs)
    unfold rlines
    rw [if_neg hc]
    by_cases hcs : cs = []
    · subst hcs; rfl
    · rw [rlines_single (fun hx => h (List.mem_cons_of_mem c hx)) hcs]

/-! ### C2 (amended) — truncation at `#` ignores quoting -/

/-- C2 amended: comment truncation applies to the first `#` of a line
whether or not it lies inside a string literal: tokenizing a line
`pre#post` gives exactly the tokens of `pre` — everything after the `#`
is discarded before scanning (so a `#` inside a string literal
typically leaves the literal unterminated, as the counterexample
shows). -/
theorem c2_hash_truncates_in_strings (pre post : List Char)
    (hpre : '#' ∉ pre) (hpren : '\n' ∉ pre) (hprer : '\r' ∉ pre)
    (hpostn : '\n' ∉ post) :
    tokenize (String.mk (pre ++ '#' :: post)) = tokenize (String.mk pre) := by
  have hall : ∀ c ∈ pre, (c ≠ '#' : Bool) = true := by
    intro c hc
    simp only [ne_eq, decide_eq_true_eq]
    intro h
    exact hpre (h ▸ hc)
  have hn : '\n' ∉ pre ++ '#' :: post := by
    intro h
    rcases List.mem_append.mp h with h | h
    · exact hpren h
    · rcases List.mem_cons.mp h with h | h
      · exact absurd h.symm (by decide)
      · exact hpostn h
  have hleft : (dropCR (pre ++ '#' :: post)).takeWhile (· ≠ '#') = pre := by
    unfold dropCR
    split
    · next hlast =>
      -- the whole line ends in '\r', so `post` is nonempty and its last
      -- character is dropped; the prefix before '#' is unchanged
      rcases post.eq_nil_or_concat with hpost | ⟨post', y, hpost⟩
      · subst hpost
        rw [List.getLast?_concat] at hlast
        exact absurd hlast (by decide)
      · rw [List.concat_eq_append] at hpost
        subst hpost
        rw [show pre ++ '#' :: (post' ++ [y]) = (pre ++ '#' :: post') ++ [y] by simp,
          List.dropLast_concat]
        exact takeWhile_append_stop post' (by decide) hall
    · exact takeWhile_append_stop post (by decide) hall
  have hright : (dropCR pre).takeWhile (· ≠ '#') = pre := by
    rw [dropCR_id hprer]
    exact takeWhile_all hall
  unfold tokenize
  rw [rlines_single hn (by simp)]
  by_cases hpe : pre = []
  · subst hpe
    simp only [List.nil_append] at hleft ⊢
    unfold tokenizeLines
    rw [hleft]
    rfl
  · rw [rlines_single hpren hpe]
    unfold tokenizeLines
    rw [hleft, hright]

/-- Witness for the amended C2 on the line `var#x`: everything after
the `#` is dropped. -/
theorem c2_hash_truncates_in_strings_witness :
    tokenize (String.mk (['v', 'a', 'r'] ++ '#' :: ['x']))
      = tokenize (String.mk ['v', 'a', 'r']) :=
  c2_hash_truncates_in_strings ['v', 'a', 'r'] ['x']
    (by decide) (by decide) (by decide) (by decide)

/-! ### Digit-string lemmas for C3 -/

theorem digitChar_isDigit {d : Nat} (h : d < 10) : (digitChar d).isDigit = true := by
  interval_cases d <;> decide

theorem digitChar_toNat {d : Nat} (h : d < 10) : (digitChar d).toNat = 48 + d := by
  interval_cases d <;> decide

theorem natDigits_digits : ∀ (fuel n : Nat), ∀ c ∈ natDigits fuel n, c.isDigit = true := by
  intro fuel
  induction fuel with
  | zero => intro n c hc; simp [natDigits] at hc
  | succ f ih =>
    intro n c hc
    rw [natDigits] at hc
    split at hc
    · next h =>
      rw [List.mem_singleton] at hc
      exact hc ▸ digitChar_isDigit h
    · rcases List.mem_append.mp hc with hc | hc
      · exact ih _ c hc
      · rw [List.mem_singleton] at hc
        exact hc ▸ digitChar_isDigit (Nat.mod_lt _ (by omega))

theorem natDigits_ne_nil (fuel n : Nat) (h : fuel ≠ 0) : natDigits fuel n ≠ [] := by
  cases fuel with
  | zero => exact absurd rfl h
  | succ f =>
    rw [natDigits]
    split
    · simp
    · simp

theorem digitsVal_concat (l : List Char) (c : Char) :
    digitsVal (l ++ [c]) = 10 * digitsVal l + (c.toNat - 48) := by
  simp [digitsVal, List.foldl_append]

theorem digitsVal_roundtrip : ∀ (fuel n : Nat), n < fuel →
    digitsVal (natDigits fuel n) = n := by
  intro fuel
  induction fuel with
  | zero => omega
  | succ f ih =>
    intro n hn
    rw [natDigits]
    split
    · next h =>
      simp [digitsVal, digitChar_toNat h]
    · next h =>
      rw [digitsVal_concat, ih (n / 10) (by omega),
        digitChar_toNat (Nat.mod_lt _ (by omega))]
      omega

/-- A digit character is none of the characters the scanning pipeline
treats specially. -/
theorem digit_ne {c : Char} (h : c.isDigit = true) :
    c ≠ '\n' ∧ c ≠ '\r' ∧ c ≠ '#' ∧ c.isWhitespace = false ∧ ¬(c = ' ' ∨ c = '\t') := by
  refine ⟨fun h' => by subst h'; exact absurd h (by decide),
          fun h' => by subst h'; exact absurd h (by decide),
          fun h' => by subst h'; exact absurd h (by decide), ?_, ?_⟩
  · cases hw : c.isWhitespace
    · rfl
    · exfalso
      have h4 : c = ' ' ∨ c = '\t' ∨ c = '\r' ∨ c = '\n' := by
        simpa [Char.isWhitespace, or_assoc] using hw
      rcases h4 with rfl | rfl | rfl | rfl <;> exact absurd h (by decide)
  · rintro (rfl | rfl) <;> exact absurd h (by decide)

theorem scanNum_digits (line : Nat) :
    ∀ (ds acc : List Char) (dots : Nat) (fl : Bool),
      (∀ c ∈ ds, c.isDigit = true) →
      scanNum line ds acc dots fl = .ok (acc ++ ds, fl, []) := by
  intro ds
  induction ds with
  | nil => intro acc dots fl _; simp [scanNum]
  | cons c cs ih =>
    intro acc dots fl h
    rw [scanNum, if_pos (h c (List.mem_cons_self c cs)),
      ih (acc ++ [c]) dots fl (fun x hx => h x (List.mem_cons_of_mem c hx))]
    simp

/-- Scanning a nonempty all-digit line (whose value fits `i64`) yields
exactly one integer token. -/
theorem scanLine_digits (line : Nat) :
    ∀ (fuel : Nat) (ds : List Char), 2 ≤ fuel → ds ≠ [] →
      (∀ c ∈ ds, c.isDigit = true) → digitsVal ds ≤ i64Max →
      scanLine line fuel ds = .ok [.int (digitsVal ds : ℤ)] := by
  intro fuel ds hfuel hne hd hv
  match fuel, hfuel with
  | f + 2, _ =>
    match ds, hne with
    | d :: ds', _ =>
      have hdd := hd d (List.mem_cons_self d ds')
      rw [scanLine, if_neg (digit_ne hdd).2.2.2.2, if_pos hdd]
      rw [show scanNum line (d :: ds') [] 0 false = .ok ([] ++ d :: ds', false, []) from
        scanNum_digits line (d :: ds') [] 0 false hd]
      show (do
        let tok ← numToken line ([] ++ d :: ds') false
        let toks ← scanLine line (f + 1) []
        Except.ok (tok :: toks) : Except PalladError (List Token)) = _
      rw [List.nil_append,
        show numToken line (d :: ds') false = .ok (.int (digitsVal (d :: ds') : ℤ)) from by
          simp [numToken, hv]]
      rfl

/-! ### C3 — integer-literal round-trip -/

/-- C3 counterexample: the claim quantifies over every text matching
`-?[0-9]+`, but `"00"` matches and does not round-trip: it lexes to the
integer token `0`, whose decimal rendering is `"0"`, not `"00"`. -/
theorem c3_leading_zero_counterexample :
    tokenize "00" = .ok [.int 0, .eol] ∧ intRender 0 ≠ "00" := by
  exact ⟨rfl, by decide⟩

/-- C3 amended: the round-trip holds for texts in canonical decimal
form — no redundant leading zero and value within `i64` range — with a
leading `-` lexed as its own `Minus` token ahead of the integer token:
for every `v ≤ i64::MAX`, tokenizing the canonical rendering of `v`
yields the integer token `v` (and, with a `-` prefix, a `Minus` token
followed by it), and rendering that token's value in decimal reproduces
exactly the digits of the original text. -/
theorem c3_roundtrip_canonical (v : Nat) (hv : v ≤ i64Max) :
    tokenize (natRender v) = .ok [.int (v : ℤ), .eol] ∧
    tokenize ("-" ++ natRender v) = .ok [.minus, .int (v : ℤ), .eol] ∧
    intRender (v : ℤ) = natRender v := by
  have hds : ∀ c ∈ natDigits (v + 1) v, c.isDigit = true := natDigits_digits _ _
  have hne : natDigits (v + 1) v ≠ [] := natDigits_ne_nil _ _ (by omega)
  have hval : digitsVal (natDigits (v + 1) v) = v := digitsVal_roundtrip (v + 1) v (by omega)
  have hn : '\n' ∉ natDigits (v + 1) v := fun hm => ((digit_ne (hds _ hm)).1 rfl)
  have hr : '\r' ∉ natDigits (v + 1) v := fun hm => ((digit_ne (hds _ hm)).2.1 rfl)
  have htw : (natDigits (v + 1) v).takeWhile (· ≠ '#') = natDigits (v + 1) v :=
    takeWhile_all (fun c hc => by
      simp only [decide_eq_true_eq]
      exact (digit_ne (hds c hc)).2.2.1)
  have htr : trimChars (natDigits (v + 1) v) = natDigits (v + 1) v :=
    trimChars_id (fun c hc => (digit_ne (hds c hc)).2.2.2.1)
  have hlen : 1 ≤ (natDigits (v + 1) v).length := List.length_pos.mpr hne
  have hscan : ∀ fuel, 2 ≤ fuel →
      scanLine 0 fuel (natDigits (v + 1) v) = .ok [.int (v : ℤ)] := fun fuel hf => by
    rw [scanLine_digits 0 fuel _ hf hne hds (by rw [hval]; exact hv), hval]
  have hmain : tokenize (natRender v) = .ok [.int (v : ℤ), .eol] := by
    show tokenizeLines 0 (rlines (natDigits (v + 1) v)) = _
    rw [rlines_single hn hne]
    simp only [tokenizeLines, dropCR_id hr, htw, htr, if_neg hne]
    rw [hscan _ (by omega)]
    rfl
  refine ⟨hmain, ?_, ?_⟩
  · show tokenizeLines 0 (rlines ('-' :: natDigits (v + 1) v)) = _
    have hn' : '\n' ∉ '-' :: natDigits (v + 1) v := by
      intro hm
      rcases List.mem_cons.mp hm with hm | hm
      · exact absurd hm.symm (by decide)
      · exact hn hm
    have hr' : '\r' ∉ '-' :: natDigits (v + 1) v := by
      intro hm
      rcases List.mem_cons.mp hm with hm | hm
      · exact absurd hm.symm (by decide)
      · exact hr hm
    have htw' : ('-' :: natDigits (v + 1) v).takeWhile (· ≠ '#') = '-' :: natDigits (v + 1) v := by
      rw [List.takeWhile_cons, if_pos (by decide), htw]
    have htr' : trimChars ('-' :: natDigits (v + 1) v) = '-' :: natDigits (v + 1) v :=
      trimChars_id (by
        intro c hc
        rcases List.mem_cons.mp hc with hc | hc
        · rw [hc]; rfl
        · exact (digit_ne (hds c hc)).2.2.2.1)
    rw [rlines_single hn' (by simp)]
    simp only [tokenizeLines, dropCR_id hr', htw', htr', if_neg (List.cons_ne_nil _ _)]
    rw [show ('-' :: natDigits (v + 1) v).length + 1 = (natDigits (v + 1) v).length + 2
      from by simp]
    rw [scanLine, if_neg (by decide), if_neg (by decide), if_neg (by decide),
      if_neg (by decide), if_neg (by decide), if_neg (by decide), if_neg (by decide),
      if_pos (show ('-' : Char) = '-' from rfl)]
    rw [hscan _ (by omega)]
    rfl
  · show (if (v : ℤ) < 0 then "-" else "") ++ natRender (v : ℤ).natAbs = natRender v
    rw [if_neg (by omega)]
    simp [Int.natAbs_ofNat]

/-- Witness for C3 at the concrete value `42`. -/
theorem c3_roundtrip_canonical_witness :
    tokenize (natRender 42) = .ok [.int 42, .eol] ∧
    tokenize ("-" ++ natRender 42) = .ok [.minus, .int 42, .eol] ∧
    intRender 42 = natRender 42 :=
  c3_roundtrip_canonical 42 (by decide)

/-! ### C8 — compilation is total and deterministic -/

/-- C8: for every statement sequence the parser can produce, `compile`
returns `Ok`, and the produced IR is uniquely determined by the AST
(lowering is a pure function, so compiling twice yields identical
sequences). -/
theorem c8_compile_total_deterministic (toks : List Token) (stmts : List Stmt)
    (_hp : parse toks = .ok stmts) :
    ∃ code, compile stmts = .ok code ∧
      ∀ code', compile stmts = .ok code' → code' = code :=
  ⟨compileStmts stmts, rfl, fun _ h' => (Except.ok.inj h').symm⟩

/-- Witness for C8 on the token stream of `var x = 1`. -/
theorem c8_compile_total_deterministic_witness :
    ∃ code, compile [.letStmt "x" (.int 1)] = .ok code ∧
      ∀ code', compile [.letStmt "x" (.int 1)] = .ok code' → code' = code :=
  c8_compile_total_deterministic [.var, .ident "x", .eq, .int 1, .eol]
    [.letStmt "x" (.int 1)] rfl

/-! ### C4 — stack balance -/

/-- The net stack effect of one instruction. -/
def instrEffect : Instr → ℤ
  | .loadNone => 1
  | .loadInt _ => 1
  | .loadFloat _ => 1
  | .loadStr _ => 1
  | .loadVar _ => 1
  | .storeVar _ => -1
  | .add => -1
  | .sub => -1
  | .mul => -1
  | .div => -1
  | .intDiv => -1
  | .mod => -1
  | .callBuiltin _ argc => -(argc : ℤ)
  | .pop => -1

/-- The net stack effect of an instruction sequence. -/
def netEffect (code : List Instr) : ℤ := (code.map instrEffect).sum

theorem netEffect_nil : netEffect [] = 0 := rfl

theorem netEffect_cons (i : Instr) (code : List Instr) :
    netEffect (i :: code) = instrEffect i + netEffect code := by
  simp [netEffect]

theorem netEffect_append (a b : List Instr) :
    netEffect (a ++ b) = netEffect a + netEffect b := by
  simp [netEffect]

/-- A successful `popArgs` pops exactly `n` values. -/
theorem popArgs_length :
    ∀ (n : Nat) (stack args rest : List Value),
      popArgs n stack = .ok (args, rest) →
      args.length = n ∧ stack.length = n + rest.length := by
  intro n
  induction n with
  | zero =>
    intro stack args rest h
    rw [popArgs] at h
    cases h
    simp
  | succ m ih =>
    intro stack args rest h
    match stack with
    | [] => rw [popArgs] at h; cases h
    | v :: stack' =>
      rw [popArgs] at h
      cases harg : popArgs m stack' with
      | error e => rw [harg] at h; cases h
      | ok p =>
        rw [harg] at h
        cases h
        have := ih stack' p.1 p.2 (by rw [harg])
        simp [this.1, this.2]
        omega

/-- Arithmetic instructions pop two operands and push one. -/
theorem execArith_length (op : Op) (s s' : VMState)
    (h : execArith op s = (s', Option.none)) :
    (s'.stack.length : ℤ) = s.stack.length - 1 := by
  rw [execArith] at h
  match hs : s.stack with
  | [] => rw [hs] at h; rw [popTwoOperands] at h; cases h
  | [b] => rw [hs] at h; rw [popTwoOperands] at h; cases h
  | b :: a :: rest =>
    rw [hs] at h
    rw [popTwoOperands] at h
    cases he : binOpEval op a b with
    | error e => rw [he] at h; cases h
    | ok v => rw [he] at h; cases h; simp [hs]

/-- A successfully executed instruction changes the stack height by
exactly its net effect. -/
theorem exec1_length (i : Instr) (s s' : VMState)
    (h : exec1 i s = (s', Option.none)) :
    (s'.stack.length : ℤ) = s.stack.length + instrEffect i := by
  cases i with
  | loadNone => cases h; simp [instrEffect]
  | loadInt n => cases h; simp [instrEffect]
  | loadFloat q => cases h; simp [instrEffect]
  | loadStr str => cases h; simp [instrEffect]
  | loadVar name =>
    rw [exec1] at h
    cases hl : s.globals.lookup name with
    | some v => rw [hl] at h; cases h; simp [instrEffect]
    | none => rw [hl] at h; cases h
  | storeVar name =>
    rw [exec1] at h
    match hs : s.stack with
    | [] => rw [hs] at h; cases h
    | v :: rest => rw [hs] at h; cases h; simp [instrEffect, hs]
  | add => exact execArith_length .add s s' h
  | sub => exact execArith_length .sub s s' h
  | mul => exact execArith_length .mul s s' h
  | div => exact execArith_length .div s s' h
  | intDiv => exact execArith_length .intDiv s s' h
  | mod => exact execArith_length .mod s s' h
  | callBuiltin name argc =>
    rw [exec1] at h
    by_cases hn : name = "print"
    · rw [if_pos hn] at h
      cases hp : popArgs argc s.stack with
      | error e => rw [hp] at h; cases h
      | ok p =>
        rw [hp] at h
        cases h
        have := popArgs_length argc s.stack p.1 p.2 (by rw [hp])
        simp [instrEffect, this.2]
    · rw [if_neg hn] at h
      cases h
  | pop =>
    rw [exec1] at h
    match hs : s.stack with
    | [] => rw [hs] at h; cases h
    | v :: rest => rw [hs] at h; cases h; simp [instrEffect, hs]

/-- A successful run changes the stack height by the code's net
effect. -/
theorem run_length :
    ∀ (code : List Instr) (s s' : VMState), run code s = (s', Option.none) →
      (s'.stack.length : ℤ) = s.stack.length + netEffect code := by
  intro code
  induction code with
  | nil => intro s s' h; cases h; simp [netEffect]
  | cons i is ih =>
    intro s s' h
    rw [run] at h
    cases he : exec1 i s with
    | mk s1 err =>
      cases err with
      | none =>
        rw [he] at h
        have h1 := exec1_length i s s1 he
        have h2 := ih s1 s' h
        rw [netEffect_cons]
        omega
      | some e => rw [he] at h; cases h

/-- An expression containing no `Call` node (the parser's expression
grammar cannot produce calls — they exist only at statement level). -/
def exprNoCall : Expr → Bool
  | .none => true
  | .int _ => true
  | .float _ => true
  | .str _ => true
  | .var _ => true
  | .binary l _ r => exprNoCall l && exprNoCall r
  | .call _ _ => false

/-- The shape of statements the parser can produce: `Let` of a
call-free expression, or a call statement whose arguments are
call-free. -/
def stmtOK : Stmt → Bool
  | .letStmt _ e => exprNoCall e
  | .expr (.call _ args) => args.all exprNoCall
  | .expr e => exprNoCall e

/-- A call-free expression lowers to code with a net effect of exactly
one pushed value. -/
theorem netEffect_compileExpr : ∀ (e : Expr), exprNoCall e = true →
    netEffect (compileExpr e) = 1
  | .none, _ => rfl
  | .int _, _ => rfl
  | .float _, _ => rfl
  | .str _, _ => rfl
  | .var _, _ => rfl
  | .binary l op r, h => by
    rcases Bool.and_eq_true_iff.mp (by simpa [exprNoCall] using h) with ⟨hl, hr⟩
    rw [compileExpr, netEffect_append, netEffect_append,
      netEffect_compileExpr l hl, netEffect_compileExpr r hr]
    cases op <;> rfl
  | .call _ _, h => by simp [exprNoCall] at h

/-- Lowering `n` call-free arguments pushes exactly `n` values. -/
theorem netEffect_compileArgs : ∀ (args : List Expr),
    (∀ e ∈ args, exprNoCall e = true) →
    netEffect (compileArgs args) = args.length
  | [], _ => rfl
  | e :: es, h => by
    rw [compileArgs, netEffect_append,
      netEffect_compileExpr e (h e (List.mem_cons_self e es)),
      netEffect_compileArgs es (fun x hx => h x (List.mem_cons_of_mem e hx))]
    simp
    omega

/-- Parser-shaped statements lower to stack-neutral code. -/
theorem netEffect_compileStmts : ∀ (stmts : List Stmt),
    (∀ st ∈ stmts, stmtOK st = true) →
    netEffect (compileStmts stmts) = 0 := by
  intro stmts
  induction stmts with
  | nil => intro _; rfl
  | cons st rest ih =>
    intro h
    have hst := h st (List.mem_cons_self st rest)
    have hrest := ih (fun x hx => h x (List.mem_cons_of_mem st hx))
    cases st with
    | letStmt name e =>
      rw [compileStmts, netEffect_append, netEffect_cons,
        netEffect_compileExpr e (by simpa [stmtOK] using hst), hrest]
      rfl
    | expr e =>
      cases e with
      | call name args =>
        have hargs : ∀ x ∈ args, exprNoCall x = true := by
          simpa [stmtOK, List.all_eq_true] using hst
        rw [compileStmts, netEffect_append, netEffect_cons,
          netEffect_compileArgs args hargs, hrest]
        simp [instrEffect]
      | none =>
        rw [compileStmts, netEffect_append, netEffect_cons,
          netEffect_compileExpr _ (by simpa [stmtOK] using hst), hrest]
        · rfl
        · intro _ _ h'
          cases h'
      | int n =>
        rw [compileStmts, netEffect_append, netEffect_cons,
          netEffect_compileExpr _ (by simpa [stmtOK] using hst), hrest]
        · rfl
        · intro _ _ h'
          cases h'
      | float q =>
        rw [compileStmts, netEffect_append, netEffect_cons,
          netEffect_compileExpr _ (by simpa [stmtOK] using hst), hrest]
        · rfl
        · intro _ _ h'
          cases h'
      | str s =>
        rw [compileStmts, netEffect_append, netEffect_cons,
          netEffect_compileExpr _ (by simpa [stmtOK] using hst), hrest]
        · rfl
        · intro _ _ h'
          cases h'
      | var name =>
        rw [compileStmts, netEffect_append, netEffect_cons,
          netEffect_compileExpr _ (by simpa [stmtOK] using hst), hrest]
        · rfl
        · intro _ _ h'
          cases h'
      | binary l op r =>
        rw [compileStmts, netEffect_append, netEffect_cons,
          netEffect_compileExpr _ (by simpa [stmtOK] using hst), hrest]
        · rfl
        · intro _ _ h'
          cases h'

/-- Injectivity of `Except.ok` (specialised helper). -/
theorem okInj {α : Type} {x y : α} (h : (Except.ok x : Except PalladError α) = .ok y) :
    x = y := by
  injection h

/-- The parser's expression grammar never produces a `Call` node, and
its statement grammar produces only `Let`s of call-free expressions and
`print`-call statements with call-free arguments. -/
theorem parserShapes : ∀ fuel : Nat,
    (∀ s e s', parseFactor fuel s = .ok (e, s') → exprNoCall e = true) ∧
    (∀ s e s', parseMulDiv fuel s = .ok (e, s') → exprNoCall e = true) ∧
    (∀ left s e s', exprNoCall left = true → mulLoop fuel left s = .ok (e, s') →
      exprNoCall e = true) ∧
    (∀ s e s', parseAddSub fuel s = .ok (e, s') → exprNoCall e = true) ∧
    (∀ left s e s', exprNoCall left = true → addLoop fuel left s = .ok (e, s') →
      exprNoCall e = true) ∧
    (∀ s es s', parseArgs fuel s = .ok (es, s') → ∀ e ∈ es, exprNoCall e = true) ∧
    (∀ s stmts, parseStmts fuel s = .ok stmts → ∀ st ∈ stmts, stmtOK st = true) := by
  intro fuel
  induction fuel with
  | zero =>
    refine ⟨fun s e s' h => ?_, fun s e s' h => ?_, fun left s e s' hl h => ?_,
      fun s e s' h => ?_, fun left s e s' hl h => ?_, fun s es s' h => ?_,
      fun s stmts h => ?_⟩
    · simp [parseFactor] at h
    · simp [parseMulDiv] at h
    · simp [mulLoop] at h
    · simp [parseAddSub] at h
    · simp [addLoop] at h
    · simp [parseArgs] at h
    · simp [parseStmts] at h
  | succ f ih =>
    obtain ⟨ihF, ihM, ihML, ihA, ihAL, ihG, ihS⟩ := ih
    refine ⟨fun s e s' h => ?_, fun s e s' h => ?_, fun left s e s' hl h => ?_,
      fun s e s' h => ?_, fun left s e s' hl h => ?_, fun s es s' h => ?_,
      fun s stmts h => ?_⟩
    -- parseFactor
    · rw [parseFactor] at h
      split at h
      · -- unary minus
        split at h
        · next operand s1 heq =>
          obtain ⟨rfl, rfl⟩ := Prod.mk.inj (okInj h)
          simp [exprNoCall, ihF _ _ _ heq]
        · exact absurd h (by simp)
      · obtain ⟨rfl, rfl⟩ := Prod.mk.inj (okInj h); rfl
      · obtain ⟨rfl, rfl⟩ := Prod.mk.inj (okInj h); rfl
      · obtain ⟨rfl, rfl⟩ := Prod.mk.inj (okInj h); rfl
      · obtain ⟨rfl, rfl⟩ := Prod.mk.inj (okInj h); rfl
      · -- parenthesised expression
        split at h
        · next e1 s1 heq =>
          split at h
          · obtain ⟨rfl, rfl⟩ := Prod.mk.inj (okInj h)
            exact ihA _ _ _ heq
          · exact absurd h (by simp)
          · exact absurd h (by simp)
        · exact absurd h (by simp)
      · exact absurd h (by simp)
      · exact absurd h (by simp)
    -- parseMulDiv
    · rw [parseMulDiv] at h
      split at h
      · next l1 s1 heq => exact ihML _ _ _ _ (ihF _ _ _ heq) h
      · exact absurd h (by simp)
    -- mulLoop
    · rw [mulLoop] at h
      split at h
      · next op hop =>
        split at h
        · next r1 s1 heq =>
          exact ihML _ _ _ _ (by simp [exprNoCall, hl, ihF _ _ _ heq]) h
        · exact absurd h (by simp)
      · obtain ⟨rfl, rfl⟩ := Prod.mk.inj (okInj h); exact hl
    -- parseAddSub
    · rw [parseAddSub] at h
      split at h
      · next l1 s1 heq => exact ihAL _ _ _ _ (ihM _ _ _ heq) h
      · exact absurd h (by simp)
    -- addLoop
    · rw [addLoop] at h
      split at h
      · next op hop =>
        split at h
        · next r1 s1 heq =>
          exact ihAL _ _ _ _ (by simp [exprNoCall, hl, ihM _ _ _ heq]) h
        · exact absurd h (by simp)
      · obtain ⟨rfl, rfl⟩ := Prod.mk.inj (okInj h); exact hl
    -- parseArgs
    · rw [parseArgs] at h
      split at h
      · obtain ⟨rfl, rfl⟩ := Prod.mk.inj (okInj h)
        intro e he
        simp at he
      · split at h
        · next e1 s1 heq =>
          split at h
          · split at h
            · next es1 s2 heq2 =>
              obtain ⟨rfl, rfl⟩ := Prod.mk.inj (okInj h)
              intro x hx
              rcases List.mem_cons.mp hx with rfl | hx
              · exact ihA _ _ _ heq
              · exact ihG _ _ _ heq2 x hx
            · exact absurd h (by simp)
          · obtain ⟨rfl, rfl⟩ := Prod.mk.inj (okInj h)
            intro x hx
            rcases List.mem_cons.mp hx with rfl | hx
            · exact ihA _ _ _ heq
            · simp at hx
          · exact absurd h (by simp)
          · exact absurd h (by simp)
        · exact absurd h (by simp)
    -- parseStmts
    · rw [parseStmts] at h
      split at h
      · obtain rfl := okInj h
        intro st hst
        simp at hst
      · -- var statement
        split at h
        · split at h
          · split at h
            · next e1 s3 heq =>
              split at h
              · next rest hrest =>
                obtain rfl := okInj h
                intro st hst
                rcases List.mem_cons.mp hst with rfl | hst
                · simpa [stmtOK] using ihA _ _ _ heq
                · exact ihS _ _ hrest st hst
              · exact absurd h (by simp)
            · exact absurd h (by simp)
          · exact absurd h (by simp)
          · exact absurd h (by simp)
        · exact absurd h (by simp)
        · exact absurd h (by simp)
      · -- print statement
        split at h
        · split at h
          · next args s2 heq =>
            split at h
            · next rest hrest =>
              obtain rfl := okInj h
              intro st hst
              rcases List.mem_cons.mp hst with rfl | hst
              · simpa [stmtOK, List.all_eq_true] using ihG _ _ _ heq
              · exact ihS _ _ hrest st hst
            · exact absurd h (by simp)
          · exact absurd h (by simp)
        · exact absurd h (by simp)
        · exact absurd h (by simp)
      · -- blank line
        exact ihS _ _ h
      · exact absurd h (by simp)

/-- C4: for every well-formed token stream (one the parser accepts),
compiling the parsed statements and running the resulting instruction
sequence to successful completion leaves the operand stack empty after
the last instruction. -/
theorem c4_stack_balance (toks : List Token) (stmts : List Stmt) (code : List Instr)
    (s' : VMState) (hp : parse toks = .ok stmts) (hc : compile stmts = .ok code)
    (hr : run code VMState.init = (s', Option.none)) :
    s'.stack = [] := by
  have hok : ∀ st ∈ stmts, stmtOK st = true :=
    (parserShapes (8 * toks.length + 8)).2.2.2.2.2.2 _ _ hp
  have hcode : code = compileStmts stmts := (okInj hc).symm
  have hnet : netEffect code = 0 := by
    rw [hcode]
    exact netEffect_compileStmts stmts hok
  have hlen := run_length code VMState.init s' hr
  rw [hnet] at hlen
  have hz : s'.stack.length = 0 := by simpa [VMState.init] using hlen
  exact List.length_eq_zero.mp hz

/-- Witness for C4 on the program `var x = 1` / `print(x)`. -/
theorem c4_stack_balance_witness :
    (⟨[], [("x", .int 1)], ["1"]⟩ : VMState).stack = [] :=
  c4_stack_balance
    [.var, .ident "x", .eq, .int 1, .eol, .print, .lparen, .ident "x", .rparen, .eol]
    [.letStmt "x" (.int 1), .expr (.call "print" [.var "x"])]
    [.loadInt 1, .storeVar "x", .loadVar "x", .callBuiltin "print" 1]
    ⟨[], [("x", .int 1)], ["1"]⟩ rfl rfl rfl

/-! ### C9 — the `none` token is lexed but never parsed

The statement below rests on an invariant of the parser: it never
advances past a `None` token (no `advance` call is guarded by one), so
with a `None` token at index `i`, every parsing function started at a
position `≤ i` stays at positions `≤ i`.  In particular the cursor
never reaches the end of the stream — so the parse can neither succeed
nor fail with `EndOfInput`, and (given enough fuel) it must fail with
`UnexpectedToken`. -/

theorem padvance_tokens (s : PState) : (padvance s).tokens = s.tokens := rfl

theorem padvance_pos (s : PState) : (padvance s).pos = s.pos + 1 := rfl

theorem parseExpr_eq (fuel : Nat) (s : PState) : parseExpr fuel s = parseAddSub fuel s := rfl

/-- With a `None` token at index `i`, a cursor at position `≤ i` always
has a current token. -/
theorem curTok_isSome (toks : List Token) (i : Nat) (hi : toks[i]? = some Token.none)
    (s : PState) (ht : s.tokens = toks) (hp : s.pos ≤ i) : ∃ t, curTok s = some t := by
  have hlen : i < toks.length := by
    by_contra hc
    rw [List.getElem?_eq_none (by omega)] at hi
    cases hi
  refine ⟨toks[s.pos], ?_⟩
  rw [curTok, ht, List.getElem?_eq_getElem (by omega)]

/-- A cursor at position `≤ i` showing a token other than `None` is in
fact strictly before `i`. -/
theorem pos_lt_of_curTok (toks : List Token) (i : Nat) (hi : toks[i]? = some Token.none)
    (s : PState) (t : Token) (ht : s.tokens = toks) (hp : s.pos ≤ i)
    (hc : curTok s = some t) (hne : t ≠ Token.none) : s.pos < i := by
  rcases Nat.lt_or_ge s.pos i with h | h
  · exact h
  · exfalso
    have hpi : s.pos = i := by omega
    rw [curTok, ht, hpi, hi] at hc
    exact hne (Option.some.inj hc).symm

/-- The threshold induction: with a `None` token at index `i`, every
parsing function applied at a position `≤ i` with enough fuel either
fails with `UnexpectedToken` or succeeds without moving the cursor past
`i`; the statement parser always fails with `UnexpectedToken`. -/
theorem parserNoneStuck (toks : List Token) (i : Nat)
    (hi : toks[i]? = some Token.none) : ∀ fuel : Nat,
    (∀ s, s.tokens = toks → s.pos ≤ i → 4 + 8 * (i - s.pos) ≤ fuel →
      (∃ g x l, parseFactor fuel s = .error (.unexpectedToken g x l)) ∨
      (∃ e s', parseFactor fuel s = .ok (e, s') ∧ s'.tokens = toks ∧
        s.pos ≤ s'.pos ∧ s'.pos ≤ i)) ∧
    (∀ s, s.tokens = toks → s.pos ≤ i → 5 + 8 * (i - s.pos) ≤ fuel →
      (∃ g x l, parseMulDiv fuel s = .error (.unexpectedToken g x l)) ∨
      (∃ e s', parseMulDiv fuel s = .ok (e, s') ∧ s'.tokens = toks ∧
        s.pos ≤ s'.pos ∧ s'.pos ≤ i)) ∧
    (∀ left s, s.tokens = toks → s.pos ≤ i → 2 + 8 * (i - s.pos) ≤ fuel →
      (∃ g x l, mulLoop fuel left s = .error (.unexpectedToken g x l)) ∨
      (∃ e s', mulLoop fuel left s = .ok (e, s') ∧ s'.tokens = toks ∧
        s.pos ≤ s'.pos ∧ s'.pos ≤ i)) ∧
    (∀ s, s.tokens = toks → s.pos ≤ i → 6 + 8 * (i - s.pos) ≤ fuel →
      (∃ g x l, parseAddSub fuel s = .error (.unexpectedToken g x l)) ∨
      (∃ e s', parseAddSub fuel s = .ok (e, s') ∧ s'.tokens = toks ∧
        s.pos ≤ s'.pos ∧ s'.pos ≤ i)) ∧
    (∀ left s, s.tokens = toks → s.pos ≤ i → 2 + 8 * (i - s.pos) ≤ fuel →
      (∃ g x l, addLoop fuel left s = .error (.unexpectedToken g x l)) ∨
      (∃ e s', addLoop fuel left s = .ok (e, s') ∧ s'.tokens = toks ∧
        s.pos ≤ s'.pos ∧ s'.pos ≤ i)) ∧
    (∀ s, s.tokens = toks → s.pos ≤ i → 7 + 8 * (i - s.pos) ≤ fuel →
      (∃ g x l, parseArgs fuel s = .error (.unexpectedToken g x l)) ∨
      (∃ es s', parseArgs fuel s = .ok (es, s') ∧ s'.tokens = toks ∧
        s.pos ≤ s'.pos ∧ s'.pos ≤ i)) ∧
    (∀ s, s.tokens = toks → s.pos ≤ i → 8 + 8 * (i - s.pos) ≤ fuel →
      ∃ g x l, parseStmts fuel s = .error (.unexpectedToken g x l)) := by
  intro fuel
  induction fuel with
  | zero =>
    refine ⟨fun s _ _ hf => ?_, fun s _ _ hf => ?_, fun left s _ _ hf => ?_,
      fun s _ _ hf => ?_, fun left s _ _ hf => ?_, fun s _ _ hf => ?_,
      fun s _ _ hf => ?_⟩ <;> omega
  | succ f ih =>
    obtain ⟨ihF, ihM, ihML, ihA, ihAL, ihG, ihS⟩ := ih
    have factA := curTok_isSome toks i hi
    have factB := pos_lt_of_curTok toks i hi
    refine ⟨?_, ?_, ?_, ?_, ?_, ?_, ?_⟩
    -- parseFactor
    · intro s ht hp hf
      rw [parseFactor]
      split
      · -- unary minus
        next hcur =>
        have hlt : s.pos < i := factB s _ ht hp hcur (by decide)
        split
        · next operand s1 heq =>
          rcases ihF (padvance s) ht (by rw [padvance_pos]; omega)
              (by rw [padvance_pos]; omega) with ⟨g, x, l, herr⟩ | ⟨e1, s2, hok, ht1, hp1, hp2⟩
          · rw [herr] at heq; cases heq
          · rw [hok] at heq
            obtain ⟨rfl, rfl⟩ := Prod.mk.inj (okInj heq)
            exact Or.inr ⟨_, _, rfl, ht1, by rw [padvance_pos] at hp1; omega, hp2⟩
        · next e heq =>
          rcases ihF (padvance s) ht (by rw [padvance_pos]; omega)
              (by rw [padvance_pos]; omega) with ⟨g, x, l, herr⟩ | ⟨e1, s2, hok, ht1, hp1, hp2⟩
          · rw [herr] at heq
            obtain rfl := Except.error.inj heq
            exact Or.inl ⟨g, x, l, rfl⟩
          · rw [hok] at heq; cases heq
      · -- integer literal
        next n hcur =>
        have hlt : s.pos < i := factB s _ ht hp hcur (by simp)
        exact Or.inr ⟨_, padvance s, rfl, ht, by rw [padvance_pos]; omega,
          by rw [padvance_pos]; omega⟩
      · -- float literal
        next q hcur =>
        have hlt : s.pos < i := factB s _ ht hp hcur (by simp)
        exact Or.inr ⟨_, padvance s, rfl, ht, by rw [padvance_pos]; omega,
          by rw [padvance_pos]; omega⟩
      · -- string literal
        next str hcur =>
        have hlt : s.pos < i := factB s _ ht hp hcur (by simp)
        exact Or.inr ⟨_, padvance s, rfl, ht, by rw [padvance_pos]; omega,
          by rw [padvance_pos]; omega⟩
      · -- identifier
        next name hcur =>
        have hlt : s.pos < i := factB s _ ht hp hcur (by simp)
        exact Or.inr ⟨_, padvance s, rfl, ht, by rw [padvance_pos]; omega,
          by rw [padvance_pos]; omega⟩
      · -- parenthesised expression
        next hcur =>
        have hlt : s.pos < i := factB s _ ht hp hcur (by decide)
        split
        · next e1 s1 heq =>
          rcases ihA (padvance s) ht (by rw [padvance_pos]; omega)
              (by rw [padvance_pos]; omega) with ⟨g, x, l, herr⟩ | ⟨e2, s2, hok, ht1, hp1, hp2⟩
          · rw [herr] at heq; cases heq
          · rw [hok] at heq
            obtain ⟨rfl, rfl⟩ := Prod.mk.inj (okInj heq)
            split
            · -- closing ')'
              next hcur1 =>
              have hlt1 : s2.pos < i := factB s2 _ ht1 hp2 hcur1 (by decide)
              refine Or.inr ⟨_, padvance s2, rfl, ht1, ?_, ?_⟩
              · rw [padvance_pos]
                rw [padvance_pos] at hp1
                omega
              · rw [padvance_pos]
                omega
            · exact Or.inl ⟨_, _, _, rfl⟩
            · next hcur1 =>
              obtain ⟨t, hct⟩ := factA s2 ht1 hp2
              rw [hct] at hcur1
              cases hcur1
        · next e heq =>
          rcases ihA (padvance s) ht (by rw [padvance_pos]; omega)
              (by rw [padvance_pos]; omega) with ⟨g, x, l, herr⟩ | ⟨e2, s2, hok, ht1, hp1, hp2⟩
          · rw [herr] at heq
            obtain rfl := Except.error.inj heq
            exact Or.inl ⟨g, x, l, rfl⟩
          · rw [hok] at heq; cases heq
      · -- any other token: UnexpectedToken
        exact Or.inl ⟨_, _, _, rfl⟩
      · -- end of input: impossible before index i
        next hcur =>
        obtain ⟨t, hct⟩ := factA s ht hp
        rw [hct] at hcur
        cases hcur
    -- parseMulDiv
    · intro s ht hp hf
      rw [parseMulDiv]
      split
      · next left s1 heq =>
        rcases ihF s ht hp (by omega) with ⟨g, x, l, herr⟩ | ⟨e1, s2, hok, ht1, hp1, hp2⟩
        · rw [herr] at heq; cases heq
        · rw [hok] at heq
          obtain ⟨rfl, rfl⟩ := Prod.mk.inj (okInj heq)
          rcases ihML e1 s2 ht1 hp2 (by omega) with ⟨g, x, l, herr2⟩ | ⟨e2, s3, hok2, ht2, hp3, hp4⟩
          · rw [herr2]
            exact Or.inl ⟨g, x, l, rfl⟩
          · rw [hok2]
            exact Or.inr ⟨e2, s3, rfl, ht2, by omega, hp4⟩
      · next e heq =>
        rcases ihF s ht hp (by omega) with ⟨g, x, l, herr⟩ | ⟨e1, s2, hok, ht1, hp1, hp2⟩
        · rw [herr] at heq
          obtain rfl := Except.error.inj heq
          exact Or.inl ⟨g, x, l, rfl⟩
        · rw [hok] at heq; cases heq
    -- mulLoop
    · intro left s ht hp hf
      rw [mulLoop]
      split
      · -- a multiplicative operator follows
        next op hop =>
        have hsome : ∃ t, curTok s = some t ∧ t ≠ Token.none := by
          rcases hcv : curTok s with _ | t
          · rw [hcv] at hop
            simp [mulOpOf] at hop
          · refine ⟨t, rfl, ?_⟩
            rintro rfl
            rw [hcv] at hop
            simp [mulOpOf] at hop
        obtain ⟨t, hct, htn⟩ := hsome
        have hlt : s.pos < i := factB s t ht hp hct htn
        split
        · next right s1 heq =>
          rcases ihF (padvance s) ht (by rw [padvance_pos]; omega)
              (by rw [padvance_pos]; omega) with ⟨g, x, l, herr⟩ | ⟨e1, s2, hok, ht1, hp1, hp2⟩
          · rw [herr] at heq; cases heq
          · rw [hok] at heq
            obtain ⟨rfl, rfl⟩ := Prod.mk.inj (okInj heq)
            rcases ihML (.binary left op e1) s2 ht1 hp2
                (by rw [padvance_pos] at hp1; omega)
              with ⟨g, x, l, herr2⟩ | ⟨e2, s3, hok2, ht2, hp3, hp4⟩
            · rw [herr2]
              exact Or.inl ⟨g, x, l, rfl⟩
            · rw [hok2]
              exact Or.inr ⟨e2, s3, rfl, ht2, by rw [padvance_pos] at hp1; omega, hp4⟩
        · next e heq =>
          rcases ihF (padvance s) ht (by rw [padvance_pos]; omega)
              (by rw [padvance_pos]; omega) with ⟨g, x, l, herr⟩ | ⟨e1, s2, hok, ht1, hp1, hp2⟩
          · rw [herr] at heq
            obtain rfl := Except.error.inj heq
            exact Or.inl ⟨g, x, l, rfl⟩
          · rw [hok] at heq; cases heq
      · exact Or.inr ⟨left, s, rfl, ht, le_refl _, hp⟩
    -- parseAddSub
    · intro s ht hp hf
      rw [parseAddSub]
      split
      · next left s1 heq =>
        rcases ihM s ht hp (by omega) with ⟨g, x, l, herr⟩ | ⟨e1, s2, hok, ht1, hp1, hp2⟩
        · rw [herr] at heq; cases heq
        · rw [hok] at heq
          obtain ⟨rfl, rfl⟩ := Prod.mk.inj (okInj heq)
          rcases ihAL e1 s2 ht1 hp2 (by omega) with ⟨g, x, l, herr2⟩ | ⟨e2, s3, hok2, ht2, hp3, hp4⟩
          · rw [herr2]
            exact Or.inl ⟨g, x, l, rfl⟩
          · rw [hok2]
            exact Or.inr ⟨e2, s3, rfl, ht2, by omega, hp4⟩
      · next e heq =>
        rcases ihM s ht hp (by omega) with ⟨g, x, l, herr⟩ | ⟨e1, s2, hok, ht1, hp1, hp2⟩
        · rw [herr] at heq
          obtain rfl := Except.error.inj heq
          exact Or.inl ⟨g, x, l, rfl⟩
        · rw [hok] at heq; cases heq
    -- addLoop
    · intro left s ht hp hf
      rw [addLoop]
      split
      · -- an additive operator follows
        next op hop =>
        have hsome : ∃ t, curTok s = some t ∧ t ≠ Token.none := by
          rcases hcv : curTok s with _ | t
          · rw [hcv] at hop
            simp [addOpOf] at hop
          · refine ⟨t, rfl, ?_⟩
            rintro rfl
            rw [hcv] at hop
            simp [addOpOf] at hop
        obtain ⟨t, hct, htn⟩ := hsome
        have hlt : s.pos < i := factB s t ht hp hct htn
        split
        · next right s1 heq =>
          rcases ihM (padvance s) ht (by rw [padvance_pos]; omega)
              (by rw [padvance_pos]; omega) with ⟨g, x, l, herr⟩ | ⟨e1, s2, hok, ht1, hp1, hp2⟩
          · rw [herr] at heq; cases heq
          · rw [hok] at heq
            obtain ⟨rfl, rfl⟩ := Prod.mk.inj (okInj heq)
            rcases ihAL (.binary left op e1) s2 ht1 hp2
                (by rw [padvance_pos] at hp1; omega)
              with ⟨g, x, l, herr2⟩ | ⟨e2, s3, hok2, ht2, hp3, hp4⟩
            · rw [herr2]
              exact Or.inl ⟨g, x, l, rfl⟩
            · rw [hok2]
              exact Or.inr ⟨e2, s3, rfl, ht2, by rw [padvance_pos] at hp1; omega, hp4⟩
        · next e heq =>
          rcases ihM (padvance s) ht (by rw [padvance_pos]; omega)
              (by rw [padvance_pos]; omega) with ⟨g, x, l, herr⟩ | ⟨e1, s2, hok, ht1, hp1, hp2⟩
          · rw [herr] at heq
            obtain rfl := Except.error.inj heq
            exact Or.inl ⟨g, x, l, rfl⟩
          · rw [hok] at heq; cases heq
      · exact Or.inr ⟨left, s, rfl, ht, le_refl _, hp⟩
    -- parseArgs
    · intro s ht hp hf
      rw [parseArgs]
      split
      · -- immediate ')'
        next hcur =>
        have hlt : s.pos < i := factB s _ ht hp hcur (by decide)
        exact Or.inr ⟨[], padvance s, rfl, ht, by rw [padvance_pos]; omega,
          by rw [padvance_pos]; omega⟩
      · -- parse one argument expression
        split
        · next e1 s1 heq =>
          rw [parseExpr_eq] at heq
          rcases ihA s ht hp (by omega) with ⟨g, x, l, herr⟩ | ⟨e2, s2, hok, ht1, hp1, hp2⟩
          · rw [herr] at heq; cases heq
          · rw [hok] at heq
            obtain ⟨rfl, rfl⟩ := Prod.mk.inj (okInj heq)
            split
            · -- comma: continue the list
              next hcur1 =>
              have hlt1 : s2.pos < i := factB s2 _ ht1 hp2 hcur1 (by decide)
              split
              · next es s3 heq2 =>
                rcases ihG (padvance s2) ht1 (by rw [padvance_pos]; omega)
                    (by rw [padvance_pos]; omega)
                  with ⟨g, x, l, herr2⟩ | ⟨es2, s4, hok2, ht2, hp3, hp4⟩
                · rw [herr2] at heq2; cases heq2
                · rw [hok2] at heq2
                  obtain ⟨rfl, rfl⟩ := Prod.mk.inj (okInj heq2)
                  refine Or.inr ⟨_, _, rfl, ht2, ?_, hp4⟩
                  rw [padvance_pos] at hp3
                  omega
              · next e heq2 =>
                rcases ihG (padvance s2) ht1 (by rw [padvance_pos]; omega)
                    (by rw [padvance_pos]; omega)
                  with ⟨g, x, l, herr2⟩ | ⟨es2, s4, hok2, ht2, hp3, hp4⟩
                · rw [herr2] at heq2
                  obtain rfl := Except.error.inj heq2
                  exact Or.inl ⟨g, x, l, rfl⟩
                · rw [hok2] at heq2; cases heq2
            · -- closing ')'
              next hcur1 =>
              have hlt1 : s2.pos < i := factB s2 _ ht1 hp2 hcur1 (by decide)
              refine Or.inr ⟨_, padvance s2, rfl, ht1, ?_, ?_⟩
              · rw [padvance_pos]
                omega
              · rw [padvance_pos]
                omega
            · exact Or.inl ⟨_, _, _, rfl⟩
            · next hcur1 =>
              obtain ⟨t, hct⟩ := factA s2 ht1 hp2
              rw [hct] at hcur1
              cases hcur1
        · next e heq =>
          rw [parseExpr_eq] at heq
          rcases ihA s ht hp (by omega) with ⟨g, x, l, herr⟩ | ⟨e2, s2, hok, ht1, hp1, hp2⟩
          · rw [herr] at heq
            obtain rfl := Except.error.inj heq
            exact Or.inl ⟨g, x, l, rfl⟩
          · rw [hok] at heq; cases heq
    -- parseStmts
    · intro s ht hp hf
      rw [parseStmts]
      split
      · -- end of stream: impossible before index i
        next hcur =>
        obtain ⟨t, hct⟩ := factA s ht hp
        rw [hct] at hcur
        cases hcur
      · -- var statement
        next hcur =>
        have hlt : s.pos < i := factB s _ ht hp hcur (by decide)
        split
        · -- identifier
          next name hcur1 =>
          have hlt1 : (padvance s).pos < i :=
            factB (padvance s) _ ht (by rw [padvance_pos]; omega) hcur1 (by simp)
          rw [padvance_pos] at hlt1
          split
          · -- '='
            next hcur2 =>
            have hlt2 : (padvance (padvance s)).pos < i :=
              factB (padvance (padvance s)) _ ht
                (by rw [padvance_pos, padvance_pos]; omega) hcur2 (by decide)
            rw [padvance_pos, padvance_pos] at hlt2
            split
            · next e1 s3 heq =>
              rw [parseExpr_eq] at heq
              rcases ihA (padvance (padvance (padvance s))) ht
                  (by rw [padvance_pos, padvance_pos, padvance_pos]; omega)
                  (by rw [padvance_pos, padvance_pos, padvance_pos]; omega)
                with ⟨g, x, l, herr⟩ | ⟨e2, s4, hok, ht1, hp1, hp2⟩
              · rw [herr] at heq; cases heq
              · rw [hok] at heq
                obtain ⟨rfl, rfl⟩ := Prod.mk.inj (okInj heq)
                rw [padvance_pos, padvance_pos, padvance_pos] at hp1
                obtain ⟨g, x, l, herr2⟩ := ihS s4 ht1 hp2 (by omega)
                split
                · next rest heq2 =>
                  rw [herr2] at heq2
                  cases heq2
                · next e heq2 =>
                  rw [herr2] at heq2
                  obtain rfl := Except.error.inj heq2
                  exact ⟨g, x, l, rfl⟩
            · next e heq =>
              rw [parseExpr_eq] at heq
              rcases ihA (padvance (padvance (padvance s))) ht
                  (by rw [padvance_pos, padvance_pos, padvance_pos]; omega)
                  (by rw [padvance_pos, padvance_pos, padvance_pos]; omega)
                with ⟨g, x, l, herr⟩ | ⟨e2, s4, hok, ht1, hp1, hp2⟩
              · rw [herr] at heq
                obtain rfl := Except.error.inj heq
                exact ⟨g, x, l, rfl⟩
              · rw [hok] at heq; cases heq
          · exact ⟨_, _, _, rfl⟩
          · next hcur2 =>
            obtain ⟨t, hct⟩ := factA (padvance (padvance s)) ht
              (by rw [padvance_pos, padvance_pos]; omega)
            rw [hct] at hcur2
            cases hcur2
        · exact ⟨_, _, _, rfl⟩
        · next hcur1 =>
          obtain ⟨t, hct⟩ := factA (padvance s) ht (by rw [padvance_pos]; omega)
          rw [hct] at hcur1
          cases hcur1
      · -- print statement
        next hcur =>
        have hlt : s.pos < i := factB s _ ht hp hcur (by decide)
        split
        · -- '('
          next hcur1 =>
          have hlt1 : (padvance s).pos < i :=
            factB (padvance s) _ ht (by rw [padvance_pos]; omega) hcur1 (by decide)
          rw [padvance_pos] at hlt1
          split
          · next args s2 heq =>
            rcases ihG (padvance (padvance s)) ht
                (by rw [padvance_pos, padvance_pos]; omega)
                (by rw [padvance_pos, padvance_pos]; omega)
              with ⟨g, x, l, herr⟩ | ⟨args2, s3, hok, ht1, hp1, hp2⟩
            · rw [herr] at heq; cases heq
            · rw [hok] at heq
              obtain ⟨rfl, rfl⟩ := Prod.mk.inj (okInj heq)
              rw [padvance_pos, padvance_pos] at hp1
              obtain ⟨g, x, l, herr2⟩ := ihS s3 ht1 hp2 (by omega)
              split
              · next rest heq2 =>
                rw [herr2] at heq2
                cases heq2
              · next e heq2 =>
                rw [herr2] at heq2
                obtain rfl := Except.error.inj heq2
                exact ⟨g, x, l, rfl⟩
          · next e heq =>
            rcases ihG (padvance (padvance s)) ht
                (by rw [padvance_pos, padvance_pos]; omega)
                (by rw [padvance_pos, padvance_pos]; omega)
              with ⟨g, x, l, herr⟩ | ⟨args2, s3, hok, ht1, hp1, hp2⟩
            · rw [herr] at heq
              obtain rfl := Except.error.inj heq
              exact ⟨g, x, l, rfl⟩
            · rw [hok] at heq; cases heq
        · exact ⟨_, _, _, rfl⟩
        · next hcur1 =>
          obtain ⟨t, hct⟩ := factA (padvance s) ht (by rw [padvance_pos]; omega)
          rw [hct] at hcur1
          cases hcur1
      · -- blank line
        next hcur =>
        have hlt : s.pos < i := factB s _ ht hp hcur (by decide)
        exact ihS (padvance s) ht (by rw [padvance_pos]; omega) (by rw [padvance_pos]; omega)
      · exact ⟨_, _, _, rfl⟩

/-- C9: the bare word `none` is lexed into its dedicated token, but the
parser accepts that token nowhere: every token stream containing it
fails parsing with `UnexpectedToken` (so in particular no statement
list — and hence no compiled program constructing the none runtime
value — ever comes out of a stream containing it). -/
theorem c9_none_lexed_never_parsed :
    tokenize "none" = .ok [Token.none, Token.eol] ∧
    (∀ toks, Token.none ∈ toks →
      ∃ g x l, parse toks = .error (.unexpectedToken g x l)) ∧
    (∀ toks stmts, parse toks = .ok stmts → Token.none ∉ toks) := by
  have main : ∀ toks, Token.none ∈ toks →
      ∃ g x l, parse toks = .error (.unexpectedToken g x l) := by
    intro toks hmem
    obtain ⟨i, hlt, hgt⟩ := List.getElem_of_mem hmem
    have hi : toks[i]? = some Token.none := by
      rw [List.getElem?_eq_getElem hlt, hgt]
    exact (parserNoneStuck toks i hi (8 * toks.length + 8)).2.2.2.2.2.2
      ⟨toks, 0, 1⟩ rfl (Nat.zero_le i) (by omega)
  refine ⟨rfl, main, ?_⟩
  intro toks stmts hok hmem
  obtain ⟨g, x, l, herr⟩ := main toks hmem
  rw [herr] at hok
  cases hok

/-- Witness for C9: the one-token stream `[None]` fails with
`UnexpectedToken` naming the legal statement starts. -/
theorem c9_none_lexed_never_parsed_witness :
    ∃ g x l, parse [Token.none] = .error (.unexpectedToken g x l) :=
  c9_none_lexed_never_parsed.2.1 [Token.none] (List.mem_singleton.mpr rfl)

end Pallad
